import Mathlib

/-!
r0sbag: post-processing of bag containers

A shallow embedding of the `cmd` package (`cat.go`, `reindex.go`, `info.go`).

Conventions of the embedding

* A Go `string` is a Lean `String`; a Go `[]byte` is a `List Char`, one
  character per byte, and `[]byte(s)` is `s.toList`.
* A Go `error` is an `Option String`: `none` is `nil`, `some e` carries the
  message.  `fmt.Errorf("ctx: %w", err)` is `"ctx: " ++ err`.
* Unsigned machine integers (`uint32`, `uint64`) are `Nat`, signed ones are
  `Int`; where the source can overflow the wrap is written out.
* The container library (`rosbag.Reader`, `rosbag.Writer`), the transcoder
  (`ros1msg.JSONTranscoder`) and `io.Writer` are external collaborators.  They
  are parameters of the model: a reader is the list of results its iterator
  will hand out, a writer is the log of the calls made on it together with a
  behaviour deciding which calls fail.
-/

namespace R0sbag

/-! ## Data model (the fields of the container library's records used by `cmd`) -/

/-- The `rosbag.ConnectionHeader` fields read by the package; `Type_` is the Go field
`Type`. -/
structure ConnectionHeader where
  Type_ : String
  MD5Sum : String
  MessageDefinition : List Char
deriving DecidableEq, Repr

/-- The `rosbag.Connection` record: `Conn` is a `uint32`. -/
structure Connection where
  Conn : Nat
  Topic : String
  Data : ConnectionHeader
deriving DecidableEq, Repr

/-- The `rosbag.Message` record: `Conn` is a `uint32`, `Time` a `uint64`. -/
structure Message where
  Conn : Nat
  Time : Nat
  Data : List Char
deriving DecidableEq, Repr

/-- The `rosbag.ChunkInfo` record: `ChunkPos` is a `uint64`, the keys and values of `Data`
are `uint32`. -/
structure ChunkInfo where
  ChunkPos : Nat
  StartTime : Nat
  EndTime : Nat
  Count : Nat
  Data : List (Nat × Nat)
deriving DecidableEq, Repr

/-! ## Go maps keyed by `uint32` -/

/-- A Go `map[uint32]bool` as an association list; the newest binding of a key is first. -/
abbrev BoolMap := List (Nat × Bool)

/-- The expression `m[k]` on a `map[uint32]bool`: the zero value `false` when `k` is absent. -/
def BoolMap.get (m : BoolMap) (k : Nat) : Bool := (m.lookup k).getD false

/-- The statement `m[k] = v`. -/
def BoolMap.set (m : BoolMap) (k : Nat) (v : Bool) : BoolMap := (k, v) :: m

/-! ## The reader: `processMessages` (cat.go) -/

/-- One result of `it.Next()`: a pair, or a read error. -/
abbrev ReadResult := Except String (Connection × Message)

/-- What `rosbag.NewReader(r)` and `reader.Messages(rosbag.ScanLinear(linear))` will do on a
given `io.Reader`: either call may fail; otherwise the iterator hands out `stream`, one
element per `it.Next()`, and `it.More()` holds while elements remain. -/
structure Source where
  newReader : Option String
  messages : Bool → Except String (List ReadResult)

/-- A callback of `processMessages` with its captured variables made explicit as the state
`σ`: it returns the new state and the error. -/
abbrev Callback (σ : Type) := σ → Connection → Message → σ × Option String

/-- The inner loop `for _, callback := range callbacks` on one pair: stops at the first
callback returning an error. -/
def runCallbacks {σ : Type} : List (Callback σ) → σ → Connection → Message → σ × Option String
  | [], s, _, _ => (s, none)
  | cb :: rest, s, conn, msg =>
    match cb s conn msg with
    | (s1, some err) => (s1, some err)
    | (s1, none) => runCallbacks rest s1 conn msg

/-- The outcome of a scan: the callbacks' state, what is left unread in the iterator, and
the returned error. -/
structure Outcome (σ : Type) where
  state : σ
  unread : List ReadResult
  err : Option String

/-- The loop `for it.More() { conn, msg, err := it.Next(); ... }`. -/
def scan {σ : Type} (callbacks : List (Callback σ)) : List ReadResult → σ → Outcome σ
  | [], s => ⟨s, [], none⟩
  | .error err :: rest, s => ⟨s, rest, some ("failed to read message: " ++ err)⟩
  | .ok (conn, msg) :: rest, s =>
    match runCallbacks callbacks s conn msg with
    | (s1, some err) => ⟨s1, rest, some err⟩
    | (s1, none) => scan callbacks rest s1

/-- The function `processMessages(r, linear, callbacks...)`.  When the reader or the iterator
cannot be built nothing is consumed. -/
def processMessages {σ : Type} (r : Source) (linear : Bool) (callbacks : List (Callback σ))
    (s : σ) : Outcome σ :=
  match r.newReader with
  | some err => ⟨s, [], some ("failed to construct reader: " ++ err)⟩
  | none =>
    match r.messages linear with
    | .error err => ⟨s, [], some ("failed to create message iterator: " ++ err)⟩
    | .ok stream => scan callbacks stream s

/-! ## The writer and `rewrite` (reindex.go) -/

/-- A call made on the `rosbag.Writer`. -/
inductive SinkCall where
  | WriteConnection (conn : Connection)
  | WriteMessage (msg : Message)
deriving DecidableEq, Repr

/-- The behaviour of a `rosbag.Writer`: given the calls made so far and the next call, the
error it returns (`none` when the write succeeds). -/
abbrev Sink := List SinkCall → SinkCall → Option String

/-- The variables captured by the callback of `rewrite`: the `connections` map and the
calls made on `w` so far. -/
structure RewriteState where
  connections : BoolMap
  calls : List SinkCall

/-- The callback passed by `rewrite` to `processMessages`. -/
def rewriteCallback (w : Sink) : Callback RewriteState := fun s conn msg =>
  if !s.connections.get conn.Conn then
    match w s.calls (.WriteConnection conn) with
    | some err =>
      (⟨s.connections, s.calls ++ [.WriteConnection conn]⟩,
        some ("failed to write message: " ++ err))
    | none =>
      let calls1 := s.calls ++ [.WriteConnection conn]
      let connections1 := s.connections.set conn.Conn true
      match w calls1 (.WriteMessage msg) with
      | some err =>
        (⟨connections1, calls1 ++ [.WriteMessage msg]⟩, some ("failed to write message: " ++ err))
      | none => (⟨connections1, calls1 ++ [.WriteMessage msg]⟩, none)
  else
    match w s.calls (.WriteMessage msg) with
    | some err =>
      (⟨s.connections, s.calls ++ [.WriteMessage msg]⟩, some ("failed to write message: " ++ err))
    | none => (⟨s.connections, s.calls ++ [.WriteMessage msg]⟩, none)

/-- The function `rewrite(w, r)`: a linear scan with the single callback above, starting from
an empty `connections` map. -/
def rewrite (w : Sink) (r : Source) : Outcome RewriteState :=
  processMessages r true [rewriteCallback w] ⟨[], []⟩

/-- A source whose reader and iterator are built without error and whose iterator hands out
`stream`. -/
def Source.ofStream (stream : List ReadResult) : Source := ⟨none, fun _ => .ok stream⟩

/-- The sink calls that `rewrite` makes for a list of pairs when the identifiers in `seen`
are already marked: a connection record right before the first message of each new
identifier, then the message. -/
def callsFrom : List Nat → List (Connection × Message) → List SinkCall
  | _, [] => []
  | seen, (conn, msg) :: rest =>
    if conn.Conn ∈ seen then .WriteMessage msg :: callsFrom seen rest
    else .WriteConnection conn :: .WriteMessage msg :: callsFrom (conn.Conn :: seen) rest

/-- The calls owed to the pair at position `i` of `input`: its message, preceded by its
connection record exactly when no earlier pair carries the same identifier. -/
def callsAt (input : List (Connection × Message)) (i : Nat) : List SinkCall :=
  match input[i]? with
  | none => []
  | some (conn, msg) =>
    if conn.Conn ∈ (input.take i).map (fun p => p.1.Conn) then [.WriteMessage msg]
    else [.WriteConnection conn, .WriteMessage msg]

/-- Whether a sink call is a `WriteConnection` of identifier `c`. -/
def SinkCall.isConnection (c : Nat) : SinkCall → Bool
  | .WriteConnection conn => conn.Conn == c
  | .WriteMessage _ => false

/-- The messages passed to `WriteMessage`, in call order. -/
def writtenMessages : List SinkCall → List Message
  | [] => []
  | .WriteMessage msg :: rest => msg :: writtenMessages rest
  | .WriteConnection _ :: rest => writtenMessages rest

/-- The pairs read before the first read error. -/
def beforeFirstError : List ReadResult → List (Connection × Message)
  | [] => []
  | .error _ :: _ => []
  | .ok p :: rest => p :: beforeFirstError rest

/-- The read results that follow the first read error (none when there is no error). -/
def afterFirstError : List ReadResult → List ReadResult
  | [] => []
  | .error _ :: rest => rest
  | .ok _ :: rest => afterFirstError rest

/-- The first read error of a stream, if any. -/
def firstError : List ReadResult → Option String
  | [] => none
  | .error e :: _ => some e
  | .ok _ :: rest => firstError rest

/-- A sink all of whose writes succeed. -/
def okSink : Sink := fun _ _ => none

/-- Connection 0 on topic `/a` and connection 1 on topic `/b`. -/
def exampleConn (id : Nat) (topic : String) : Connection :=
  ⟨id, topic, ⟨"std_msgs/String", "992ce8a1687cec8c8bd883ec73ca41d1", "string data".toList⟩⟩

/-- The three messages of the example: connection 0 at 100, connection 1 at 150,
connection 0 at 200. -/
def exampleInput : List (Connection × Message) :=
  [(exampleConn 0 "/a", ⟨0, 100, []⟩), (exampleConn 1 "/b", ⟨1, 150, []⟩),
   (exampleConn 0 "/a", ⟨0, 200, []⟩)]

/-- A stream of two messages, a read error and a further message. -/
def exampleStream : List ReadResult :=
  [.ok (exampleConn 0 "/a", ⟨0, 100, []⟩), .ok (exampleConn 1 "/b", ⟨1, 150, []⟩),
   .error "unexpected EOF", .ok (exampleConn 0 "/a", ⟨0, 200, []⟩)]

/-! ## Machine arithmetic -/

/-- The value of an integer after it is stored in an `int64`: two's complement wrap. -/
def wrap64 (x : Int) : Int := (x + 2 ^ 63) % 2 ^ 64 - 2 ^ 63

/-- The conversion `uint64(x)` of an `int64`. -/
def toUint64 (x : Int) : Nat := (x % 2 ^ 64).toNat

/-- The conversion `float64(n)` of an `int64`, as the rational it denotes: `n` itself when
its magnitude fits the 53-bit significand, otherwise the nearest multiple of the power of two
that drops the excess bits, ties going to the even significand. -/
def float64OfInt (n : Int) : ℚ :=
  let a := n.natAbs
  let e := (Nat.log2 a + 1) - 53
  let q := a / 2 ^ e
  let r := a % 2 ^ e
  let q1 := if 2 ^ e < 2 * r ∨ (2 * r = 2 ^ e ∧ q % 2 = 1) then q + 1 else q
  if n < 0 then -((q1 * 2 ^ e : Nat) : ℚ) else ((q1 * 2 ^ e : Nat) : ℚ)

/-! ## `humanBytes` (info.go) -/

/-- The unit table of `humanBytes`. -/
def prefixes : List String := ["B", "KB", "MB", "GB"]

/-- The loop `for ; displayedValue > 1024 && prefixIndex < len(prefixes); prefixIndex++
{ displayedValue /= 1024 }`.  A `float64` division by 1024 only lowers the exponent, so it
is the exact quotient. -/
def humanBytesLoop (displayedValue : ℚ) (prefixIndex : Nat) : ℚ × Nat :=
  if 1024 < displayedValue ∧ prefixIndex < prefixes.length then
    humanBytesLoop (displayedValue / 1024) (prefixIndex + 1)
  else (displayedValue, prefixIndex)
termination_by prefixes.length - prefixIndex
decreasing_by omega

/-- The function `humanBytes(numBytes)`: the value and the unit handed to
`fmt.Sprintf("%.1f %s", ...)`, or `none` when `prefixes[prefixIndex]` is out of range and
the program panics. -/
def humanBytes (numBytes : Int) : Option (ℚ × String) :=
  let r := humanBytesLoop (float64OfInt numBytes) 0
  match prefixes[r.2]? with
  | some u => some (r.1, u)
  | none => none

/-! ## `formatDuration` (info.go) -/

/-- The constant `time.Second`, in nanoseconds. -/
def second : Int := 1000000000

/-- The constants `minDuration` and `maxDuration` of package `time`. -/
def minDuration : Int := -2 ^ 63

def maxDuration : Int := 2 ^ 63 - 1

/-- The helper `lessThanHalf(x, y)` of package `time`: `uint64(x)+uint64(x) < uint64(y)`. -/
def lessThanHalf (x y : Int) : Bool :=
  decide ((toUint64 x + toUint64 x) % 2 ^ 64 < toUint64 y)

/-- The method `Duration.Round` of package `time`: `d` rounded to the nearest multiple of
`m`, halfway values away from zero, saturating on overflow; `d` itself when `m <= 0`. -/
def durationRound (d m : Int) : Int :=
  if m ≤ 0 then d
  else
    let r := Int.tmod d m
    if d < 0 then
      let r := -r
      if lessThanHalf r m then wrap64 (d + r)
      else
        let d1 := wrap64 (d - m + r)
        if d1 < d then d1 else minDuration
    else
      if lessThanHalf r m then wrap64 (d - r)
      else
        let d1 := wrap64 (d + m - r)
        if d1 > d then d1 else maxDuration

/-- The loop `for scale > d { scale /= 10 }`, run for at most `fuel` divisions: `none`
when the condition still holds after them. -/
def scaleLoop : Nat → Int → Int → Option Int
  | 0, scale, d => if scale > d then none else some scale
  | fuel + 1, scale, d => if scale > d then scaleLoop fuel (Int.tdiv scale 10) d else some scale

/-- The function `formatDuration(d)`: the duration whose `String()` is returned, that is
`d.Round(scale / 100)`; `none` when the loop does not end within `fuel` divisions. -/
def formatDuration (fuel : Nat) (d : Int) : Option Int :=
  match scaleLoop fuel (100 * second) d with
  | none => none
  | some scale => some (durationRound d (Int.tdiv scale 100))

/-! ## `prepShadyEstimates` (info.go) -/

/-- The outcome of a Go call that may return an error or panic. -/
inductive Result (α : Type) where
  | ok (a : α)
  | error (msg : String)
  | panic (msg : String)
deriving DecidableEq, Repr

/-- The `rosbag.Info` record; `Connections` is a Go map from identifier to connection,
listed in the order a `range` happens to visit it. -/
structure Info where
  MessageStartTime : Nat
  MessageEndTime : Nat
  MessageCount : Nat
  ChunkInfos : List ChunkInfo
  Connections : List (Nat × Connection)

/-- The `io.ReadSeeker` handed to `printInfo`: a regular file and its offset. -/
structure ReadSeeker where
  data : List Char
  pos : Nat

/-- The call `rs.Seek(offset, io.SeekStart)`: an error on a negative offset. -/
def ReadSeeker.seek (rs : ReadSeeker) (offset : Int) : Except String ReadSeeker :=
  if offset < 0 then .error "invalid argument" else .ok ⟨rs.data, offset.toNat⟩

/-- The call `io.ReadFull(rs, buf)` with `len(buf) = n`: the next `n` bytes, or an error
when fewer remain. -/
def ReadSeeker.readFull (rs : ReadSeeker) (n : Nat) : Except String (List Char × ReadSeeker) :=
  let avail := rs.data.drop rs.pos
  if avail.length < n then
    .error (if avail.length = 0 ∧ 0 < n then "EOF" else "unexpected EOF")
  else .ok (avail.take n, ⟨rs.data, rs.pos + n⟩)

/-- The call `rs.Read(buf)`: the bytes available, at most `len(buf)` of them, overwrite the
start of `buf`; `EOF` when none remain. -/
def ReadSeeker.read (rs : ReadSeeker) (buf : List Char) : Except String (List Char × ReadSeeker) :=
  let avail := (rs.data.drop rs.pos).take buf.length
  if avail.length = 0 ∧ 0 < buf.length then .error "EOF"
  else .ok (avail ++ buf.drop avail.length, ⟨rs.data, rs.pos + avail.length⟩)

/-- The call `binary.LittleEndian.Uint32(b)`: `none` (a panic) on fewer than four bytes. -/
def leUint32 (b : List Char) : Option Nat :=
  match b with
  | b0 :: b1 :: b2 :: b3 :: _ =>
    some (b0.toNat % 256 + 2 ^ 8 * (b1.toNat % 256) + 2 ^ 16 * (b2.toNat % 256)
      + 2 ^ 24 * (b3.toNat % 256))
  | _ => none

/-- The index of the chunk `prepShadyEstimates` reads: `chunkCount-2` when
`chunkCount >= 3`, else `0`. -/
def representativeIndex (chunkCount : Nat) : Nat :=
  if chunkCount ≥ 3 then chunkCount - 2 else 0

/-- The representative chunk chosen by `prepShadyEstimates`; `none` when the index is out
of range. -/
def representativeChunk (chunkInfos : List ChunkInfo) : Option ChunkInfo :=
  chunkInfos[representativeIndex chunkInfos.length]?

/-- The estimate `uncompressedVolume := int64(chunkCount) * int64(chunkDecompressedSize)`. -/
def uncompressedVolume (chunkCount chunkDecompressedSize : Nat) : Int :=
  wrap64 ((chunkCount : Int) * (chunkDecompressedSize : Int))

/-- The estimate `compressedVolume := min(int64(chunkCount)*int64(compressedSize), fileSize)`. -/
def compressedVolume (chunkCount compressedSize : Nat) (fileSize : Int) : Int :=
  min (wrap64 ((chunkCount : Int) * (compressedSize : Int))) fileSize

/-- The integer quantities from which `prepShadyEstimates` renders its rows.  The rates and
the percentage are floating-point quotients of these and are not part of the model. -/
structure Estimates where
  representativeChunk : ChunkInfo
  compression : List Char
  chunkCount : Nat
  uncompressedVolume : Int
  compressedVolume : Int
deriving DecidableEq, Repr

/-- What `prepShadyEstimates` reads from the chunk record at the representative offset. -/
structure ChunkSizes where
  compression : List Char
  chunkDecompressedSize : Nat
  compressedSize : Nat
deriving DecidableEq, Repr

/-- The reads of `prepShadyEstimates`, from `rs.Seek` to the decoding of the two sizes;
`getHeaderValue` is `rosbag.GetHeaderValue`. -/
def readChunkSizes (getHeaderValue : List Char → String → Except String (List Char))
    (rs : ReadSeeker) (chunk : ChunkInfo) : Result ChunkSizes :=
  match rs.seek (wrap64 chunk.ChunkPos) with
  | .error err => .error ("failed to seek to chunk: " ++ err)
  | .ok rs1 =>
    match rs1.readFull 4 with
    | .error err => .error ("failed to read chunk header length: " ++ err)
    | .ok (length, rs2) =>
      match rs2.readFull ((leUint32 length).getD 0) with
      | .error err => .error ("failed to read chunk header: " ++ err)
      | .ok (chunkheader, rs3) =>
        match getHeaderValue chunkheader "compression" with
        | .error err => .error ("failed to read compression: " ++ err)
        | .ok compressionHeader =>
          match getHeaderValue chunkheader "size" with
          | .error err => .error ("failed to read size: " ++ err)
          | .ok sizeHeader =>
            match rs3.read length with
            | .error err => .error ("failed to read chunk length: " ++ err)
            | .ok (length1, _) =>
              match leUint32 sizeHeader with
              | none => .panic "index out of range"
              | some chunkDecompressedSize =>
                .ok ⟨compressionHeader, chunkDecompressedSize, (leUint32 length1).getD 0⟩

/-- The body of `prepShadyEstimates` around its reads: the choice of the chunk, the reads
(`reads`, applied to the chosen chunk), then the extrapolation. -/
def estimatesFrom (reads : ChunkInfo → Result ChunkSizes) (info : Info) (fileSize : Int) :
    Result Estimates :=
  match representativeChunk info.ChunkInfos with
  | none => .panic "index out of range"
  | some chunk =>
    match reads chunk with
    | .error err => .error err
    | .panic msg => .panic msg
    | .ok sizes =>
      let chunkCount := info.ChunkInfos.length
      .ok ⟨chunk, sizes.compression, chunkCount,
        uncompressedVolume chunkCount sizes.chunkDecompressedSize,
        compressedVolume chunkCount sizes.compressedSize fileSize⟩

/-- The function `prepShadyEstimates(rs, info, fileSize, ...)` up to the estimates. -/
def prepShadyEstimates (getHeaderValue : List Char → String → Except String (List Char))
    (rs : ReadSeeker) (info : Info) (fileSize : Int) : Result Estimates :=
  estimatesFrom (readChunkSizes getHeaderValue rs) info fileSize

/-- A stand-in for `rosbag.GetHeaderValue` on the example file: the compression is `lz4`
and the uncompressed size is 4096. -/
def exampleGetHeaderValue : List Char → String → Except String (List Char) := fun _ key =>
  if key = "compression" then .ok "lz4".toList
  else if key = "size" then .ok [Char.ofNat 0, Char.ofNat 16, Char.ofNat 0, Char.ofNat 0]
  else .error "header not found"

/-- A file whose chunk at offset 0 has a two-byte header followed by the compressed size
300. -/
def exampleFile : ReadSeeker :=
  ⟨[Char.ofNat 2, Char.ofNat 0, Char.ofNat 0, Char.ofNat 0, 'h', 'h',
    Char.ofNat 44, Char.ofNat 1, Char.ofNat 0, Char.ofNat 0], 0⟩

/-- Five chunk records, all pointing at offset 0. -/
def exampleChunks : List ChunkInfo :=
  [⟨0, 10, 19, 1, [(0, 1)]⟩, ⟨0, 20, 29, 1, [(0, 1)]⟩, ⟨0, 30, 39, 1, [(0, 1)]⟩,
   ⟨0, 40, 49, 1, [(0, 1)]⟩, ⟨0, 50, 59, 1, [(0, 1)]⟩]

/-- An index with the five chunks above. -/
def exampleInfo : Info := ⟨10, 59, 5, exampleChunks, []⟩

/-- The scale reached by the loop of `formatDuration` from `10^j` on a non-negative
duration: the largest power of ten up to `10^j` not above it, or 0. -/
def scaleOf : Nat → Int → Int
  | 0, d => if 1 ≤ d then 1 else 0
  | j + 1, d => if 10 ^ (j + 1) ≤ d then 10 ^ (j + 1) else scaleOf j d

/-- The duration computed by `printInfo`: `time.Duration(end - start)` with
`start := int64(info.MessageStartTime)` and `end := int64(info.MessageEndTime)`. -/
def infoDuration (info : Info) : Int :=
  wrap64 (wrap64 info.MessageEndTime - wrap64 info.MessageStartTime)

/-! ## `writeMessage` and `jsonMessageHandler` (cat.go) -/

/-- The behaviour of an `io.Writer`: given the bytes written so far and the next chunk, the
error returned by `Write` (`none` when the chunk is written). -/
abbrev IOWriter := List Char → List Char → Option String

/-- The call `w.Write(p)` on a writer that has written `out`: the bytes written afterwards
and the error. -/
def IOWriter.write (w : IOWriter) (out p : List Char) : List Char × Option String :=
  match w out p with
  | none => (out ++ p, none)
  | some err => (out, some err)

/-- The verb `%d` of `fmt.Sprintf` on an unsigned integer: its decimal digits. -/
def sprintfD (n : Nat) : List Char := Nat.toDigits 10 n

/-- The function `writeMessage(w, topic, time, data)`: seven writes, each error wrapped. -/
def writeMessage (w : IOWriter) (out : List Char) (topic : String) (time : Nat)
    (data : List Char) : List Char × Option String :=
  match w.write out "\x7b\"topic\": \"".toList with
  | (out1, some err) => (out1, some ("failed to write topic key: " ++ err))
  | (out1, none) =>
    match w.write out1 topic.toList with
    | (out2, some err) => (out2, some ("failed to write topic: " ++ err))
    | (out2, none) =>
      match w.write out2 "\", \"time\": ".toList with
      | (out3, some err) => (out3, some ("failed to write time key: " ++ err))
      | (out3, none) =>
        match w.write out3 (sprintfD time) with
        | (out4, some err) => (out4, some ("failed to write time: " ++ err))
        | (out4, none) =>
          match w.write out4 ", \"data\": ".toList with
          | (out5, some err) => (out5, some ("failed to write data key: " ++ err))
          | (out5, none) =>
            match w.write out5 data with
            | (out6, some err) => (out6, some ("failed to write data: " ++ err))
            | (out6, none) =>
              match w.write out6 "\x7d\n".toList with
              | (out7, some err) => (out7, some ("failed to write closing bracket: " ++ err))
              | (out7, none) => (out7, none)

/-- The call `strings.Split(s, sep)` for a one-byte separator: the pieces between the
occurrences of `sep`, never an empty list. -/
def stringsSplit (sep : Char) : List Char → List (List Char)
  | [] => [[]]
  | c :: rest =>
    if c = sep then [] :: stringsSplit sep rest
    else
      match stringsSplit sep rest with
      | [] => [[c]]
      | seg :: segs => (c :: seg) :: segs

/-- The expression `strings.Split(conn.Data.Type, "/")[0]`. -/
def packageName (type : String) : String :=
  String.mk ((stringsSplit '/' type.toList).headD [])

/-- The package `ros1msg` as seen by the handler: `NewJSONTranscoder(packageName, definition)`
builds a transcoder or fails; `Transcode` appends its output to the buffer it is given and
may fail. -/
structure TranscoderLib (T : Type) where
  newJSONTranscoder : String → List Char → Except String T
  transcode : T → List Char → List Char × Option String

/-- The variables captured by the handler returned by `jsonMessageHandler`: the
`transcoders` map, the buffer `jsondata`, the bytes written to `w`, and the calls made to
`NewJSONTranscoder` so far, each with the identifier of the connection it was made for. -/
structure HandlerState (T : Type) where
  transcoders : List (Nat × T)
  jsondata : List Char
  out : List Char
  built : List (Nat × String × List Char)

/-- The handler once the transcoder is known: transcode into `jsondata`, write the record,
reset the buffer. -/
def transcodeAndWrite {T : Type} (lib : TranscoderLib T) (w : IOWriter) (s : HandlerState T)
    (xcoder : T) (conn : Connection) (msg : Message) : HandlerState T × Option String :=
  match lib.transcode xcoder msg.Data with
  | (written, some err) =>
    ({ s with jsondata := s.jsondata ++ written },
      some ("failed to transcode json record: " ++ err))
  | (written, none) =>
    match writeMessage w s.out conn.Topic msg.Time (s.jsondata ++ written) with
    | (out1, some err) => ({ s with jsondata := s.jsondata ++ written, out := out1 }, some err)
    | (out1, none) => ({ s with jsondata := [], out := out1 }, none)

/-- The handler returned by `jsonMessageHandler(w)`. -/
def jsonMessageHandler {T : Type} (lib : TranscoderLib T) (w : IOWriter) :
    Callback (HandlerState T) := fun s conn msg =>
  match s.transcoders.lookup conn.Conn with
  | some xcoder => transcodeAndWrite lib w s xcoder conn msg
  | none =>
    let name := packageName conn.Data.Type_
    match lib.newJSONTranscoder name conn.Data.MessageDefinition with
    | .error err =>
      ({ s with built := s.built ++ [(conn.Conn, name, conn.Data.MessageDefinition)] },
        some ("failed to build json transcoder: " ++ err))
    | .ok xcoder =>
      transcodeAndWrite lib w
        { s with transcoders := (conn.Conn, xcoder) :: s.transcoders,
                 built := s.built ++ [(conn.Conn, name, conn.Data.MessageDefinition)] }
        xcoder conn msg

/-- The state of the handler when `jsonMessageHandler` returns it. -/
def HandlerState.init {T : Type} : HandlerState T := ⟨[], [], [], []⟩

/-- A writer that never fails. -/
def okWriter : IOWriter := fun _ _ => none

/-- Reading an unsigned decimal numeral back: `none` unless the text is a non-empty run of
digits. -/
def parseUint (l : List Char) : Option Nat :=
  if l = [] then none
  else l.foldl (fun acc c =>
    match acc with
    | none => none
    | some v => if c.isDigit then some (v * 10 + (c.toNat - 48)) else none) (some 0)

/-- The record `writeMessage` is meant to emit. -/
def record (topic : String) (time : Nat) (data : List Char) : List Char :=
  "\x7b\"topic\": \"".toList ++ topic.toList ++ "\", \"time\": ".toList ++ sprintfD time
    ++ ", \"data\": ".toList ++ data ++ "\x7d\n".toList

/-- The value of a run of decimal digits. -/
def digitsVal (l : List Char) : Nat := l.foldl (fun v c => v * 10 + (c.toNat - 48)) 0

/-! ## JSON text (RFC 8259), for the output of the extraction handler -/

/-- JSON whitespace. -/
def isWs (c : Char) : Bool := c == ' ' || c == '\t' || c == '\n' || c == '\r'

/-- A character that may stand unescaped inside a JSON string. -/
def isPlain (c : Char) : Bool := decide (32 ≤ c.toNat) && c != '"' && c != '\\'

/-- A character that may follow a backslash inside a JSON string (other than `u`). -/
def isEscape (c : Char) : Bool :=
  c == '"' || c == '\\' || c == '/' || c == 'b' || c == 'f' || c == 'n' || c == 'r' || c == 't'

/-- A hexadecimal digit. -/
def isHex (c : Char) : Bool :=
  c.isDigit || (decide ('a' ≤ c) && decide (c ≤ 'f')) || (decide ('A' ≤ c) && decide (c ≤ 'F'))

/-- The text between the quotes of a JSON string. -/
inductive JsonChars : List Char → Prop where
  | nil : JsonChars []
  | plain (c : Char) (rest : List Char) : isPlain c = true → JsonChars rest →
      JsonChars (c :: rest)
  | escape (c : Char) (rest : List Char) : isEscape c = true → JsonChars rest →
      JsonChars ('\\' :: c :: rest)
  | unicode (a b c d : Char) (rest : List Char) :
      isHex a = true → isHex b = true → isHex c = true → isHex d = true → JsonChars rest →
      JsonChars ('\\' :: 'u' :: a :: b :: c :: d :: rest)

/-- A JSON string: a body between two quotes. -/
def JsonString (l : List Char) : Prop := ∃ body, l = '"' :: body ++ ['"'] ∧ JsonChars body

/-- A non-empty run of decimal digits. -/
def Digits (l : List Char) : Prop := l ≠ [] ∧ ∀ c ∈ l, c.isDigit = true

/-- A JSON number: optional minus, integer part without leading zero, optional fraction,
optional exponent. -/
def JsonNumber (l : List Char) : Prop :=
  ∃ sign int frac exp, l = sign ++ int ++ frac ++ exp
    ∧ (sign = [] ∨ sign = ['-'])
    ∧ (int = ['0'] ∨ (Digits int ∧ int.head? ≠ some '0'))
    ∧ (frac = [] ∨ ∃ ds, frac = '.' :: ds ∧ Digits ds)
    ∧ (exp = [] ∨ ∃ e s ds, exp = e :: s ++ ds ∧ (e = 'e' ∨ e = 'E')
        ∧ (s = [] ∨ s = ['+'] ∨ s = ['-']) ∧ Digits ds)

/-- Whitespace only. -/
def Ws (l : List Char) : Prop := ∀ c ∈ l, isWs c = true

/-- The three syntactic classes of the JSON grammar that nest. -/
inductive JsonKind where
  | value
  | members
  | elements

/-- The JSON grammar: values (with surrounding whitespace), the members of an object and
the elements of an array. -/
inductive Json : JsonKind → List Char → Prop where
  | string (ws1 s ws2 : List Char) : Ws ws1 → JsonString s → Ws ws2 →
      Json .value (ws1 ++ s ++ ws2)
  | number (ws1 n ws2 : List Char) : Ws ws1 → JsonNumber n → Ws ws2 →
      Json .value (ws1 ++ n ++ ws2)
  | litTrue (ws1 ws2 : List Char) : Ws ws1 → Ws ws2 →
      Json .value (ws1 ++ ['t', 'r', 'u', 'e'] ++ ws2)
  | litFalse (ws1 ws2 : List Char) : Ws ws1 → Ws ws2 →
      Json .value (ws1 ++ ['f', 'a', 'l', 's', 'e'] ++ ws2)
  | litNull (ws1 ws2 : List Char) : Ws ws1 → Ws ws2 →
      Json .value (ws1 ++ ['n', 'u', 'l', 'l'] ++ ws2)
  | emptyObject (ws1 ws ws2 : List Char) : Ws ws1 → Ws ws → Ws ws2 →
      Json .value (ws1 ++ '\x7b' :: ws ++ '\x7d' :: ws2)
  | object (ws1 ms ws2 : List Char) : Ws ws1 → Json .members ms → Ws ws2 →
      Json .value (ws1 ++ '\x7b' :: ms ++ '\x7d' :: ws2)
  | emptyArray (ws1 ws ws2 : List Char) : Ws ws1 → Ws ws → Ws ws2 →
      Json .value (ws1 ++ '[' :: ws ++ ']' :: ws2)
  | array (ws1 es ws2 : List Char) : Ws ws1 → Json .elements es → Ws ws2 →
      Json .value (ws1 ++ '[' :: es ++ ']' :: ws2)
  | member (ws1 k ws2 v : List Char) : Ws ws1 → JsonString k → Ws ws2 → Json .value v →
      Json .members (ws1 ++ k ++ ws2 ++ ':' :: v)
  | memberCons (ws1 k ws2 v rest : List Char) : Ws ws1 → JsonString k → Ws ws2 →
      Json .value v → Json .members rest →
      Json .members (ws1 ++ k ++ ws2 ++ ':' :: v ++ ',' :: rest)
  | element (v : List Char) : Json .value v → Json .elements v
  | elementCons (v rest : List Char) : Json .value v → Json .elements rest →
      Json .elements (v ++ ',' :: rest)

/-- A JSON object without surrounding whitespace and with at least one member. -/
def IsJsonObject (body : List Char) : Prop :=
  ∃ ms, body = '\x7b' :: ms ++ ['\x7d'] ∧ Json .members ms

/-- An object text whose first member is `"topic"` with a string value. -/
def HasStringTopic (body : List Char) : Prop :=
  ∃ s rest, JsonString s ∧ Json .members rest
    ∧ body = '\x7b' :: ("\"topic\": ".toList ++ s ++ ',' :: rest) ++ ['\x7d']

/-- What the extraction output promises for one record: a JSON object with a string-valued
`topic` field on exactly one newline-terminated line. -/
def ValidRecordLine (line : List Char) : Prop :=
  ∃ body, line = body ++ ['\n'] ∧ '\n' ∉ body ∧ IsJsonObject body ∧ HasStringTopic body

/-- Where a reader of JSON text stands with respect to string quotes. -/
inductive LexState where
  | out
  | str
  | esc
deriving DecidableEq

/-- One character of quote tracking. -/
def lexStep : LexState → Char → LexState
  | .out, c => if c = '"' then .str else .out
  | .str, c => if c = '"' then .out else if c = '\\' then .esc else .str
  | .esc, _ => .str

/-- Quote tracking over a text. -/
def lexRun (s : LexState) (l : List Char) : LexState := l.foldl lexStep s

/-- The text of a record without its final newline. -/
def recordBody (topic : String) (time : Nat) (data : List Char) : List Char :=
  "\x7b\"topic\": \"".toList ++ topic.toList ++ "\", \"time\": ".toList ++ sprintfD time
    ++ ", \"data\": ".toList ++ data ++ ['\x7d']

/-- The transcoder the handler uses for a connection: the cached one, or a new one. -/
def transcoderFor {T : Type} (lib : TranscoderLib T) (s : HandlerState T) (conn : Connection) :
    Except String T :=
  match s.transcoders.lookup conn.Conn with
  | some xcoder => .ok xcoder
  | none => lib.newJSONTranscoder (packageName conn.Data.Type_) conn.Data.MessageDefinition

/-- A transcoder library for payloads that are JSON text already: `Transcode` copies its
input. -/
def exampleLib : TranscoderLib Unit := ⟨fun _ _ => .ok (), fun _ d => (d, none)⟩

/-- The command `cat` in its default mode: `processMessages(f, linear, handler)` with the
handler returned by `jsonMessageHandler(os.Stdout)`. -/
def catJSON {T : Type} (lib : TranscoderLib T) (w : IOWriter) (linear : Bool) (r : Source) :
    Outcome (HandlerState T) :=
  processMessages r linear [jsonMessageHandler lib w] HandlerState.init

/-- The text of a schema type before its first `/` (the whole type when it has none). -/
def namespaceOf (type : String) : String := String.mk (type.toList.takeWhile (fun c => c != '/'))

/-- The calls to `NewJSONTranscoder` owed to the pair at position `i` of `input`: one, with
the namespace and the raw definition of its connection, exactly when no earlier pair carries
the same identifier. -/
def buildsAt (input : List (Connection × Message)) (i : Nat) : List (Nat × String × List Char) :=
  match input[i]? with
  | none => []
  | some (conn, _) =>
    if conn.Conn ∈ (input.take i).map (fun p => p.1.Conn) then []
    else [(conn.Conn, namespaceOf conn.Data.Type_, conn.Data.MessageDefinition)]

/-- The calls to `NewJSONTranscoder` made for a list of pairs when the identifiers in `seen`
are cached already. -/
def buildsFrom : List Nat → List (Connection × Message) → List (Nat × String × List Char)
  | _, [] => []
  | seen, (conn, _) :: rest =>
    if conn.Conn ∈ seen then buildsFrom seen rest
    else (conn.Conn, namespaceOf conn.Data.Type_, conn.Data.MessageDefinition)
      :: buildsFrom (conn.Conn :: seen) rest

/-- Two connections sharing the identifier 0 with different schemas, and one with
identifier 1. -/
def exampleCatInput : List (Connection × Message) :=
  [(⟨0, "/a", ⟨"std_msgs/String", "m0", "string data".toList⟩⟩, ⟨0, 100, "1".toList⟩),
   (⟨1, "/b", ⟨"geometry_msgs/Point", "m1", "float64 x".toList⟩⟩, ⟨1, 150, "2".toList⟩),
   (⟨0, "/a", ⟨"other_msgs/String", "m2", "string other".toList⟩⟩, ⟨0, 200, "3".toList⟩)]

/-- The transcoder built from the first pair of `input` carrying the identifier `c`: the
result of `NewJSONTranscoder` on the namespace and the raw definition of that pair's
connection (`none` when no pair carries `c` or the construction fails). -/
def firstTranscoder {T : Type} (lib : TranscoderLib T) (input : List (Connection × Message))
    (c : Nat) : Option T :=
  match input.find? (fun p => p.1.Conn == c) with
  | none => none
  | some p =>
    match lib.newJSONTranscoder (namespaceOf p.1.Data.Type_) p.1.Data.MessageDefinition with
    | .ok t => some t
    | .error _ => none

/-- The transcoder owed to the identifier `c` when `cache` is held already and `input` is
still to come. -/
def transcoderOf {T : Type} (lib : TranscoderLib T) (cache : List (Nat × T))
    (input : List (Connection × Message)) (c : Nat) : Option T :=
  match cache.lookup c with
  | some t => some t
  | none => firstTranscoder lib input c

/-- The record of a pair when its payload is transcoded by `t`. -/
def recordWith {T : Type} (lib : TranscoderLib T) (t : Option T) (p : Connection × Message) :
    List Char :=
  match t with
  | some t => record p.1.Topic p.2.Time (lib.transcode t p.2.Data).1
  | none => []

/-- A transcoder library that can fail: a transcoder is the namespace it was built for,
construction fails on an empty definition, and `Transcode` fails on an empty payload and
otherwise quotes the namespace and the payload. -/
def namedLib : TranscoderLib String :=
  ⟨fun ns d => if d = [] then .error "empty definition" else .ok ns,
   fun t d => if d = [] then ([], some "empty message")
     else ('"' :: (t.toList ++ ':' :: d) ++ ['"'], none)⟩

/-- A writer that refuses a chunk holding a tab and accepts every other. -/
def noTabWriter : IOWriter := fun _ p => if '\t' ∈ p then some "short write" else none

/-! ## The types listing of `printInfo` (info.go) -/

/-- The loop `for i, connection := range info.Connections { connIDs[i] = connection.Conn }`:
`i` is the key under which the container holds the connection and indexes the slice
`connIDs`, whose length is the number of connections; an index past the end panics.  Every
key writes a slot of its own, so the order of the visit does not matter. -/
def fillConnIDs : List (Nat × Connection) → List Nat → Result (List Nat)
  | [], connIDs => .ok connIDs
  | (i, connection) :: rest, connIDs =>
    if i < connIDs.length then fillConnIDs rest (connIDs.set i connection.Conn)
    else .panic "index out of range"

/-- The call `sort.Slice(connIDs, less)` with `less` the order `<` of `uint32`: the
ascending rearrangement of the slice. -/
def sortSlice (connIDs : List Nat) : List Nat := connIDs.insertionSort (fun a b => a ≤ b)

/-- The loop over the sorted `connIDs` that builds `types`: `knownTypes` holds the types
already listed; `info.Connections[connID]` on an identifier the container does not hold
yields no connection and reading its `Data` panics. -/
def typesLoop (connections : List (Nat × Connection)) :
    List Nat → List String → List (List String) → Result (List (List String))
  | [], _, types => .ok types
  | connID :: rest, knownTypes, types =>
    match connections.lookup connID with
    | none => .panic "invalid memory address or nil pointer dereference"
    | some connection =>
      if knownTypes.contains connection.Data.Type_ then
        typesLoop connections rest knownTypes types
      else
        typesLoop connections rest (connection.Data.Type_ :: knownTypes)
          (types ++ [[connection.Data.Type_, "[" ++ connection.Data.MD5Sum ++ "]"]])

/-- The rows `types` that `printInfo` hands to `formatTable`. -/
def typesListing (info : Info) : Result (List (List String)) :=
  match fillConnIDs info.Connections (List.replicate info.Connections.length 0) with
  | .ok connIDs => typesLoop info.Connections (sortSlice connIDs) [] []
  | .error e => .error e
  | .panic e => .panic e

/-- A connection of the given identifier, type and hash. -/
def typedConn (id : Nat) (type md5 : String) : Connection :=
  ⟨id, "/t" ++ String.mk (Nat.toDigits 10 id), ⟨type, md5, []⟩⟩

/-- A bag whose connections 0, 1, 2 and 3 carry three types; the map is visited in the
order 2, 0, 3, 1. -/
def denseInfo : Info :=
  ⟨0, 0, 0, [],
   [(2, typedConn 2 "std_msgs/String" "992c"), (0, typedConn 0 "geometry_msgs/Point" "4a84"),
    (3, typedConn 3 "sensor_msgs/Imu" "6a62"), (1, typedConn 1 "std_msgs/String" "992c")]⟩

/-- A bag with a single connection, of identifier 1. -/
def sparseInfo : Info := ⟨0, 0, 0, [], [(1, typedConn 1 "std_msgs/String" "992c")]⟩

/-- The connections of `sparseInfo` held by position instead of by identifier. -/
def sparseInfoByPosition : Info := ⟨0, 0, 0, [], [(0, typedConn 1 "std_msgs/String" "992c")]⟩

/-! ## `rewrite`: proofs -/

theorem BoolMap.get_set (m : BoolMap) (k c : Nat) :
    (m.set k true).get c = (decide (c = k) || m.get c) := by
  unfold BoolMap.get BoolMap.set
  by_cases h : c = k
  · subst h; simp [List.lookup]
  · have h2 : (c == k) = false := by simpa using h
    simp [List.lookup, h2, h]

/-- The loop of `rewrite` on a succeeding sink, from any state whose map marks exactly the
identifiers of `seen`. -/
theorem scan_rewrite (w : Sink) (hw : ∀ log call, w log call = none)
    (stream : List ReadResult) :
    ∀ (seen : List Nat) (s : RewriteState), (∀ c, s.connections.get c = true ↔ c ∈ seen) →
      (scan [rewriteCallback w] stream s).state.calls
          = s.calls ++ callsFrom seen (beforeFirstError stream)
        ∧ (scan [rewriteCallback w] stream s).unread = afterFirstError stream
        ∧ (scan [rewriteCallback w] stream s).err
            = (firstError stream).map (fun e => "failed to read message: " ++ e) := by
  induction stream with
  | nil => intro seen s _; simp [scan, callsFrom, beforeFirstError, afterFirstError, firstError]
  | cons r rest ih =>
    intro seen s hs
    cases r with
    | error e => simp [scan, callsFrom, beforeFirstError, afterFirstError, firstError]
    | ok p =>
      obtain ⟨conn, msg⟩ := p
      by_cases hc : conn.Conn ∈ seen
      · have hg : s.connections.get conn.Conn = true := (hs _).2 hc
        have step : runCallbacks [rewriteCallback w] s conn msg
            = (⟨s.connections, s.calls ++ [.WriteMessage msg]⟩, none) := by
          simp [runCallbacks, rewriteCallback, hg, hw]
        have := ih seen ⟨s.connections, s.calls ++ [.WriteMessage msg]⟩ hs
        simp only [scan, step, beforeFirstError, afterFirstError, callsFrom, hc, if_true,
          firstError]
        simpa using this
      · have hg : s.connections.get conn.Conn = false := by
          cases h : s.connections.get conn.Conn with
          | false => rfl
          | true => exact absurd ((hs _).1 h) hc
        have step : runCallbacks [rewriteCallback w] s conn msg
            = (⟨s.connections.set conn.Conn true,
                s.calls ++ [.WriteConnection conn] ++ [.WriteMessage msg]⟩, none) := by
          simp [runCallbacks, rewriteCallback, hg, hw]
        have hs1 : ∀ c, (s.connections.set conn.Conn true).get c = true
            ↔ c ∈ conn.Conn :: seen := by
          intro c
          rw [BoolMap.get_set]
          simp [hs c]
        have := ih (conn.Conn :: seen)
          ⟨s.connections.set conn.Conn true,
            s.calls ++ [.WriteConnection conn] ++ [.WriteMessage msg]⟩ hs1
        simp only [scan, step, beforeFirstError, afterFirstError, callsFrom, hc, if_false,
          firstError]
        simpa using this

theorem callsFrom_eq_callsAt (rest : List (Connection × Message)) :
    ∀ (seen : List Nat) (pre : List (Connection × Message)),
      (∀ c, c ∈ seen ↔ c ∈ pre.map (fun p => p.1.Conn)) →
      callsFrom seen rest
        = (List.range rest.length).flatMap (fun i => callsAt (pre ++ rest) (pre.length + i)) := by
  induction rest with
  | nil => intro seen pre _; simp [callsFrom]
  | cons p rest ih =>
    intro seen pre hseen
    obtain ⟨conn, msg⟩ := p
    have hhead : callsAt (pre ++ (conn, msg) :: rest) (pre.length + 0)
        = if conn.Conn ∈ seen then [.WriteMessage msg]
          else [.WriteConnection conn, .WriteMessage msg] := by
      have hget : (pre ++ (conn, msg) :: rest)[pre.length + 0]? = some (conn, msg) := by
        rw [Nat.add_zero, List.getElem?_append_right (Nat.le_refl _)]
        simp
      have htake : List.take (pre.length + 0) (pre ++ (conn, msg) :: rest) = pre := by
        rw [Nat.add_zero, List.take_left]
      unfold callsAt
      rw [hget, htake]
      simp only [← hseen conn.Conn]
    have htail : ∀ i, callsAt (pre ++ (conn, msg) :: rest) (pre.length + (i + 1))
        = callsAt ((pre ++ [(conn, msg)]) ++ rest) ((pre ++ [(conn, msg)]).length + i) := by
      intro i
      have e1 : pre ++ (conn, msg) :: rest = (pre ++ [(conn, msg)]) ++ rest := by simp
      have e2 : pre.length + (i + 1) = (pre ++ [(conn, msg)]).length + i := by
        simp; omega
      rw [e1, e2]
    rw [List.length_cons, List.range_succ_eq_map, List.flatMap_cons, List.flatMap_map, hhead]
    simp only [Function.comp, Nat.succ_eq_add_one, htail]
    by_cases hc : conn.Conn ∈ seen
    · have hs1 : ∀ c, c ∈ seen ↔ c ∈ (pre ++ [(conn, msg)]).map (fun p => p.1.Conn) := by
        intro c
        rw [List.map_append, List.mem_append, ← hseen c]
        constructor
        · intro h; exact Or.inl h
        · intro h
          rcases h with h | h
          · exact h
          · simp at h
            rw [h]; exact hc
      simp [callsFrom, hc, ih seen (pre ++ [(conn, msg)]) hs1]
    · have hs1 : ∀ c, c ∈ conn.Conn :: seen
          ↔ c ∈ (pre ++ [(conn, msg)]).map (fun p => p.1.Conn) := by
        intro c
        rw [List.map_append, List.mem_append, ← hseen c, List.mem_cons]
        simp
        tauto
      simp [callsFrom, hc, ih (conn.Conn :: seen) (pre ++ [(conn, msg)]) hs1]

theorem countP_isConnection_callsFrom (c : Nat) (input : List (Connection × Message)) :
    ∀ seen : List Nat,
      (callsFrom seen input).countP (SinkCall.isConnection c)
        ≤ if c ∈ seen then 0 else 1 := by
  induction input with
  | nil => intro seen; simp [callsFrom]
  | cons p rest ih =>
    intro seen
    obtain ⟨conn, msg⟩ := p
    by_cases hc : conn.Conn ∈ seen
    · simpa [callsFrom, hc, List.countP_cons, SinkCall.isConnection] using ih seen
    · have h1 := ih (conn.Conn :: seen)
      by_cases hcc : conn.Conn = c
      · subst hcc
        simp [callsFrom, hc, List.countP_cons, SinkCall.isConnection] at h1 ⊢
        exact h1
      · have hne : ¬ c = conn.Conn := fun h => hcc h.symm
        simp [callsFrom, hc, List.countP_cons, SinkCall.isConnection, hcc, hne] at h1 ⊢
        exact h1

theorem writtenMessages_append (a b : List SinkCall) :
    writtenMessages (a ++ b) = writtenMessages a ++ writtenMessages b := by
  induction a with
  | nil => rfl
  | cons x rest ih => cases x <;> simp [writtenMessages, ih]

theorem writtenMessages_callsFrom (input : List (Connection × Message)) :
    ∀ seen : List Nat, writtenMessages (callsFrom seen input) = input.map (fun p => p.2) := by
  induction input with
  | nil => intro seen; simp [callsFrom, writtenMessages]
  | cons p rest ih =>
    intro seen
    obtain ⟨conn, msg⟩ := p
    by_cases hc : conn.Conn ∈ seen <;> simp [callsFrom, hc, writtenMessages, ih]

theorem beforeFirstError_map_ok (input : List (Connection × Message)) :
    beforeFirstError (input.map Except.ok) = input := by
  induction input with
  | nil => rfl
  | cons p rest ih => simp [beforeFirstError, ih]

/-- C1: on a sink whose writes succeed, the calls `rewrite` makes for a list of pairs are,
position by position, the message of the pair preceded by its connection record exactly when
no earlier pair carries the same identifier; hence a connection record is written at most
once per identifier, right before the first message of that identifier and nowhere else. -/
theorem rewrite_connection_once (w : Sink) (hw : ∀ log call, w log call = none)
    (input : List (Connection × Message)) :
    (rewrite w (Source.ofStream (input.map Except.ok))).state.calls
        = (List.range input.length).flatMap (callsAt input)
      ∧ ∀ c, ((rewrite w (Source.ofStream (input.map Except.ok))).state.calls).countP
          (SinkCall.isConnection c) ≤ 1 := by
  have h := (scan_rewrite w hw (input.map Except.ok) [] ⟨[], []⟩
    (by intro c; simp [BoolMap.get])).1
  have hr : (rewrite w (Source.ofStream (input.map Except.ok))).state.calls
      = callsFrom [] input := by
    simp only [rewrite, processMessages, Source.ofStream]
    rw [h, beforeFirstError_map_ok]
    rfl
  refine ⟨?_, ?_⟩
  · rw [hr, callsFrom_eq_callsAt input [] [] (by simp)]
    simp
  · intro c
    rw [hr]
    simpa using countP_isConnection_callsFrom c input []

/-- C1, at the example of the specification: connections 0 and 1 with messages at 100
(connection 0), 150 (connection 1) and 200 (connection 0) give connection 0, message 100,
connection 1, message 150, message 200. -/
theorem rewrite_connection_once_witness :
    (∀ log call, okSink log call = none)
      ∧ (rewrite okSink (Source.ofStream (exampleInput.map Except.ok))).state.calls
        = [.WriteConnection (exampleConn 0 "/a"), .WriteMessage ⟨0, 100, []⟩,
           .WriteConnection (exampleConn 1 "/b"), .WriteMessage ⟨1, 150, []⟩,
           .WriteMessage ⟨0, 200, []⟩]
      ∧ ∀ c, ((rewrite okSink (Source.ofStream (exampleInput.map Except.ok))).state.calls).countP
          (SinkCall.isConnection c) ≤ 1 :=
  ⟨fun _ _ => rfl,
    (rewrite_connection_once okSink (fun _ _ => rfl) exampleInput).1.trans (by decide),
    (rewrite_connection_once okSink (fun _ _ => rfl) exampleInput).2⟩

theorem stream_split (stream : List ReadResult) :
    (firstError stream = none ∧ stream = (beforeFirstError stream).map Except.ok
        ∧ afterFirstError stream = [])
      ∨ ∃ e, firstError stream = some e
        ∧ stream = (beforeFirstError stream).map Except.ok
            ++ Except.error e :: afterFirstError stream := by
  induction stream with
  | nil => left; simp [firstError, beforeFirstError, afterFirstError]
  | cons r rest ih =>
    cases r with
    | error e => right; exact ⟨e, by simp [firstError, beforeFirstError, afterFirstError]⟩
    | ok p =>
      rcases ih with ⟨h1, h2, h3⟩ | ⟨e, h1, h2⟩
      · left
        refine ⟨by simpa [firstError] using h1, ?_, by simpa [afterFirstError] using h3⟩
        simp only [beforeFirstError, List.map_cons]
        rw [← h2]
      · right
        refine ⟨e, by simpa [firstError] using h1, ?_⟩
        simp only [beforeFirstError, afterFirstError, List.map_cons, List.cons_append]
        rw [← h2]

/-- C2: on a sink whose writes succeed, for every stream of read results, either the
stream holds no read error, and then every message is passed to `WriteMessage` in stream
order, nothing is left unread and no error is returned; or the stream is some pairs, a
first read error and a remainder, and then exactly the messages of those pairs are passed
to `WriteMessage` in stream order, the remainder is left unread and an error is returned. -/
theorem rewrite_preserves_messages (w : Sink) (hw : ∀ log call, w log call = none)
    (stream : List ReadResult) :
    (∃ good : List (Connection × Message),
        stream = good.map Except.ok
        ∧ writtenMessages (rewrite w (Source.ofStream stream)).state.calls
            = good.map (fun p => p.2)
        ∧ (rewrite w (Source.ofStream stream)).unread = []
        ∧ (rewrite w (Source.ofStream stream)).err = none)
      ∨ ∃ (good : List (Connection × Message)) (e : String) (rest : List ReadResult),
        stream = good.map Except.ok ++ Except.error e :: rest
        ∧ writtenMessages (rewrite w (Source.ofStream stream)).state.calls
            = good.map (fun p => p.2)
        ∧ (rewrite w (Source.ofStream stream)).unread = rest
        ∧ (rewrite w (Source.ofStream stream)).err = some ("failed to read message: " ++ e) := by
  obtain ⟨h1, h2, h3⟩ := scan_rewrite w hw stream [] ⟨[], []⟩ (by intro c; simp [BoolMap.get])
  have hr : rewrite w (Source.ofStream stream) = scan [rewriteCallback w] stream ⟨[], []⟩ := rfl
  have hm : writtenMessages (rewrite w (Source.ofStream stream)).state.calls
      = (beforeFirstError stream).map (fun p => p.2) := by
    rw [hr, h1]
    simp [writtenMessages_callsFrom]
  rcases stream_split stream with ⟨e1, e2, e3⟩ | ⟨e, e1, e2⟩
  · left
    refine ⟨beforeFirstError stream, e2, hm, ?_, ?_⟩
    · rw [hr, h2, e3]
    · rw [hr, h3, e1]; rfl
  · right
    refine ⟨beforeFirstError stream, e, afterFirstError stream, e2, hm, ?_, ?_⟩
    · rw [hr, h2]
    · rw [hr, h3, e1]; rfl

/-- C2, on a stream of two messages, a read error and a further message. -/
theorem rewrite_preserves_messages_witness :
    (∀ log call, okSink log call = none)
      ∧ ((∃ good : List (Connection × Message),
          exampleStream
            = good.map Except.ok
          ∧ writtenMessages (rewrite okSink (Source.ofStream exampleStream)).state.calls
              = good.map (fun p => p.2)
          ∧ (rewrite okSink (Source.ofStream exampleStream)).unread = []
          ∧ (rewrite okSink (Source.ofStream exampleStream)).err = none)
        ∨ ∃ (good : List (Connection × Message)) (e : String) (rest : List ReadResult),
          exampleStream
            = good.map Except.ok ++ Except.error e :: rest
          ∧ writtenMessages (rewrite okSink (Source.ofStream exampleStream)).state.calls
              = good.map (fun p => p.2)
          ∧ (rewrite okSink (Source.ofStream exampleStream)).unread = rest
          ∧ (rewrite okSink (Source.ofStream exampleStream)).err
              = some ("failed to read message: " ++ e)) :=
  ⟨fun _ _ => rfl, rewrite_preserves_messages okSink (fun _ _ => rfl) _⟩

/-! ## `humanBytes`: proofs -/

theorem float64OfInt_small (n : Int) (h : n.natAbs < 2 ^ 53) : float64OfInt n = (n : ℚ) := by
  have he : (Nat.log2 n.natAbs + 1) - 53 = 0 := by
    by_cases h0 : n.natAbs = 0
    · rw [h0]; simp [Nat.log2_zero]
    · have := (Nat.log2_lt h0).2 h
      omega
  unfold float64OfInt
  simp only [he, pow_zero, Nat.div_one, Nat.mod_one, Nat.mul_zero, Nat.mul_one]
  have hc : ¬ (1 < 0 ∨ (0 = 1 ∧ n.natAbs % 2 = 1)) := by omega
  rw [if_neg hc]
  by_cases hn : n < 0
  · rw [if_pos hn]
    have : (n.natAbs : Int) = -n := by omega
    rw [show ((n.natAbs : ℕ) : ℚ) = (((n.natAbs : ℕ) : ℤ) : ℚ) from (Int.cast_natCast _).symm,
      this]
    push_cast; ring
  · rw [if_neg hn]
    have : (n.natAbs : Int) = n := by omega
    rw [show ((n.natAbs : ℕ) : ℚ) = (((n.natAbs : ℕ) : ℤ) : ℚ) from (Int.cast_natCast _).symm,
      this]

theorem float64OfInt_large (n : Int) (h : 2 ^ 53 ≤ n.natAbs) :
    ∃ m : Nat, 2 ^ 53 ≤ m ∧ float64OfInt n = if n < 0 then -(m : ℚ) else (m : ℚ) := by
  have h0 : n.natAbs ≠ 0 := by
    intro h0; rw [h0] at h; simp at h
  have hl : 53 ≤ Nat.log2 n.natAbs := (Nat.le_log2 h0).2 h
  obtain ⟨e, he⟩ : ∃ e, (Nat.log2 n.natAbs + 1) - 53 = e := ⟨_, rfl⟩
  have hle : 2 ^ (52 + e) ≤ n.natAbs := by
    have := Nat.log2_self_le h0
    have e1 : 52 + e = Nat.log2 n.natAbs := by omega
    rw [e1]; exact this
  have hq : 2 ^ 52 ≤ n.natAbs / 2 ^ e := by
    rw [Nat.le_div_iff_mul_le (by positivity)]
    rw [← pow_add]; exact hle
  have he1 : 1 ≤ e := by omega
  unfold float64OfInt
  simp only [he]
  refine ⟨(if 2 ^ e < 2 * (n.natAbs % 2 ^ e) ∨ (2 * (n.natAbs % 2 ^ e) = 2 ^ e ∧ n.natAbs / 2 ^ e % 2 = 1)
      then n.natAbs / 2 ^ e + 1 else n.natAbs / 2 ^ e) * 2 ^ e, ?_, rfl⟩
  have h2e : 2 ≤ 2 ^ e := by
    calc 2 = 2 ^ 1 := rfl
      _ ≤ 2 ^ e := Nat.pow_le_pow_right (by norm_num) he1
  have hq1 : 2 ^ 52 ≤ (if 2 ^ e < 2 * (n.natAbs % 2 ^ e) ∨ (2 * (n.natAbs % 2 ^ e) = 2 ^ e ∧ n.natAbs / 2 ^ e % 2 = 1)
      then n.natAbs / 2 ^ e + 1 else n.natAbs / 2 ^ e) := by
    split_ifs <;> omega
  calc 2 ^ 53 = 2 ^ 52 * 2 := by norm_num
    _ ≤ _ := Nat.mul_le_mul hq1 h2e

theorem float64OfInt_gt_iff (n : Int) (T : Nat) (hT : T < 2 ^ 53) :
    ((T : ℚ) < float64OfInt n ↔ (T : Int) < n) := by
  by_cases h : n.natAbs < 2 ^ 53
  · rw [float64OfInt_small n h]
    exact_mod_cast Iff.rfl
  · obtain ⟨m, hm, hf⟩ := float64OfInt_large n (by omega)
    rw [hf]
    by_cases hn : n < 0
    · rw [if_pos hn]
      constructor
      · intro hlt
        have : (0 : ℚ) ≤ (T : ℚ) := by positivity
        have : (0 : ℚ) ≤ (m : ℚ) := by positivity
        linarith
      · intro hlt; omega
    · rw [if_neg hn]
      constructor
      · intro _; omega
      · intro _
        have : T < m := by omega
        exact_mod_cast this

theorem humanBytesLoop_four (v : ℚ) : humanBytesLoop v 4 = (v, 4) := by
  rw [humanBytesLoop]; simp [prefixes]

theorem humanBytesLoop_step (v : ℚ) (k : Nat) (hk : k < 4) :
    humanBytesLoop v k = if 1024 < v then humanBytesLoop (v / 1024) (k + 1) else (v, k) := by
  rw [humanBytesLoop]
  have : k < prefixes.length := by simpa [prefixes] using hk
  simp [this]

theorem float64OfInt_div_gt_iff (n : Int) (k : Nat) (hk : k ≤ 3) :
    (1024 < float64OfInt n / 1024 ^ k ↔ (1024 : Int) ^ (k + 1) < n) := by
  have hT : 1024 ^ (k + 1) < 2 ^ 53 := by interval_cases k <;> norm_num
  have h := float64OfInt_gt_iff n (1024 ^ (k + 1)) hT
  have hpos : (0 : ℚ) < 1024 ^ k := by positivity
  rw [lt_div_iff₀ hpos]
  push_cast at h
  rw [← h, pow_succ]
  constructor <;> intro h' <;> linarith

theorem humanBytesLoop_index (n : Int) :
    (humanBytesLoop (float64OfInt n) 0).2
        = (if n ≤ 1024 then 0 else if n ≤ 1024 ^ 2 then 1 else if n ≤ 1024 ^ 3 then 2
            else if n ≤ 1024 ^ 4 then 3 else 4)
      ∧ (humanBytesLoop (float64OfInt n) 0).1
        = float64OfInt n / 1024 ^ (humanBytesLoop (float64OfInt n) 0).2 := by
  have h0 := float64OfInt_div_gt_iff n 0 (by norm_num)
  have h1 := float64OfInt_div_gt_iff n 1 (by norm_num)
  have h2 := float64OfInt_div_gt_iff n 2 (by norm_num)
  have h3 := float64OfInt_div_gt_iff n 3 (by norm_num)
  simp only [pow_zero, div_one, pow_one, zero_add] at h0 h1
  have e2 : float64OfInt n / 1024 / 1024 = float64OfInt n / 1024 ^ 2 := by ring
  have e3 : float64OfInt n / 1024 / 1024 / 1024 = float64OfInt n / 1024 ^ 3 := by ring
  have e4 : float64OfInt n / 1024 / 1024 / 1024 / 1024 = float64OfInt n / 1024 ^ 4 := by ring
  rw [humanBytesLoop_step _ 0 (by norm_num)]
  by_cases c0 : n ≤ 1024
  · have : ¬ (1024 < float64OfInt n) := by rw [h0]; omega
    rw [if_neg this]
    exact ⟨by rw [if_pos c0], by simp⟩
  · have t0 : 1024 < float64OfInt n := by rw [h0]; omega
    rw [if_pos t0, humanBytesLoop_step _ 1 (by norm_num)]
    by_cases c1 : n ≤ 1024 ^ 2
    · have : ¬ (1024 < float64OfInt n / 1024) := by rw [h1]; omega
      rw [if_neg this]
      exact ⟨by rw [if_neg c0, if_pos c1], by simp⟩
    · have t1 : 1024 < float64OfInt n / 1024 := by rw [h1]; omega
      rw [if_pos t1, humanBytesLoop_step _ 2 (by norm_num)]
      by_cases c2 : n ≤ 1024 ^ 3
      · have : ¬ (1024 < float64OfInt n / 1024 / 1024) := by rw [e2, h2]; omega
        rw [if_neg this]
        exact ⟨by rw [if_neg c0, if_neg c1, if_pos c2], e2⟩
      · have t2 : 1024 < float64OfInt n / 1024 / 1024 := by rw [e2, h2]; omega
        rw [if_pos t2, humanBytesLoop_step _ 3 (by norm_num)]
        by_cases c3 : n ≤ 1024 ^ 4
        · have : ¬ (1024 < float64OfInt n / 1024 / 1024 / 1024) := by rw [e3, h3]; omega
          rw [if_neg this]
          exact ⟨by rw [if_neg c0, if_neg c1, if_neg c2, if_pos c3], e3⟩
        · have t3 : 1024 < float64OfInt n / 1024 / 1024 / 1024 := by rw [e3, h3]; omega
          rw [if_pos t3, humanBytesLoop_four]
          exact ⟨by rw [if_neg c0, if_neg c1, if_neg c2, if_neg c3], e4⟩


/-- C10: the unit index reached by the loop of `humanBytes` is the number of divisions by
1024 performed; it is 0 up to 1024 (all negative counts included), 1, 2, 3 up to 1024^2,
1024^3, 1024^4, and 4, one past the end of the four-entry table, above 1024^4; so it is a
valid index exactly when the count is at most 1024^4. -/
theorem humanBytes_unit_index (n : Int) :
    (humanBytesLoop (float64OfInt n) 0).2
        = (if n ≤ 1024 then 0 else if n ≤ 1024 ^ 2 then 1 else if n ≤ 1024 ^ 3 then 2
            else if n ≤ 1024 ^ 4 then 3 else 4)
      ∧ (humanBytesLoop (float64OfInt n) 0).1
        = float64OfInt n / 1024 ^ (humanBytesLoop (float64OfInt n) 0).2
      ∧ ((humanBytesLoop (float64OfInt n) 0).2 < prefixes.length ↔ n ≤ 1024 ^ 4)
      ∧ ((humanBytesLoop (float64OfInt n) 0).2 = 4 ↔ 1024 ^ 4 < n)
      ∧ (humanBytes n = none ↔ 1024 ^ 4 < n) := by
  obtain ⟨h1, h2⟩ := humanBytesLoop_index n
  have hlen : prefixes.length = 4 := rfl
  have hv : (humanBytesLoop (float64OfInt n) 0).2 < 4 ↔ n ≤ 1024 ^ 4 := by
    rw [h1]; clear h1 h2
    split_ifs <;> constructor <;> intro h <;> omega
  have h4 : (humanBytesLoop (float64OfInt n) 0).2 = 4 ↔ 1024 ^ 4 < n := by
    rw [h1]; clear h1 h2 hv
    split_ifs <;> constructor <;> intro h <;> first | omega | contradiction
  refine ⟨h1, h2, by rw [hlen]; exact hv, h4, ?_⟩
  unfold humanBytes
  simp only []
  cases hp : prefixes[(humanBytesLoop (float64OfInt n) 0).2]? with
  | none =>
    have : prefixes.length ≤ (humanBytesLoop (float64OfInt n) 0).2 := List.getElem?_eq_none_iff.1 hp
    rw [hlen] at this
    simp only [true_iff]
    by_contra hc
    have := hv.2 (by omega)
    omega
  | some u =>
    have : (humanBytesLoop (float64OfInt n) 0).2 < prefixes.length := by
      by_contra hc
      rw [List.getElem?_eq_none_iff.2 (by omega)] at hp
      cases hp
    rw [hlen] at this
    have := hv.1 this
    simp only [false_iff, reduceCtorEq]
    omega

/-! ## `prepShadyEstimates`: proofs -/

theorem compressedVolume_le (chunkCount compressedSize : Nat) (fileSize : Int) :
    compressedVolume chunkCount compressedSize fileSize ≤ fileSize := by
  unfold compressedVolume
  exact Int.min_le_right _ _

theorem estimatesFrom_compressedVolume_le (reads : ChunkInfo → Result ChunkSizes) (info : Info)
    (fileSize : Int) (est : Estimates) (h : estimatesFrom reads info fileSize = .ok est) :
    est.compressedVolume ≤ fileSize := by
  unfold estimatesFrom at h
  cases h1 : representativeChunk info.ChunkInfos with
  | none => simp only [h1] at h; cases h
  | some chunk =>
    cases h2 : reads chunk with
    | error e => simp only [h1, h2] at h; cases h
    | panic e => simp only [h1, h2] at h; cases h
    | ok sizes =>
      simp only [h1, h2, Result.ok.injEq] at h
      rw [← h]
      exact compressedVolume_le _ _ _

/-- C3: the compressed-volume estimate is at most the file size, for every chunk count,
every compressed chunk size and every file size, and so is the estimate returned by every
successful run of `prepShadyEstimates`. -/
theorem compressedVolume_le_fileSize (fileSize : Int) :
    (∀ chunkCount compressedSize : Nat,
        compressedVolume chunkCount compressedSize fileSize ≤ fileSize)
      ∧ ∀ (getHeaderValue : List Char → String → Except String (List Char))
          (rs : ReadSeeker) (info : Info) (est : Estimates),
          prepShadyEstimates getHeaderValue rs info fileSize = .ok est →
            est.compressedVolume ≤ fileSize :=
  ⟨fun _ _ => compressedVolume_le _ _ _,
    fun ghv rs info est h =>
      estimatesFrom_compressedVolume_le (readChunkSizes ghv rs) info fileSize est h⟩

/-- C3, on the example file: five chunks of compressed size 300 in a file of 1000 bytes
give the estimate 1000, not 1500. -/
theorem compressedVolume_le_fileSize_witness :
    prepShadyEstimates exampleGetHeaderValue exampleFile exampleInfo 1000
        = .ok ⟨⟨0, 40, 49, 1, [(0, 1)]⟩, "lz4".toList, 5, 20480, 1000⟩
      ∧ (1000 : Int) ≤ 1000 :=
  ⟨by decide,
    (compressedVolume_le_fileSize 1000).2 exampleGetHeaderValue exampleFile exampleInfo
      ⟨⟨0, 40, 49, 1, [(0, 1)]⟩, "lz4".toList, 5, 20480, 1000⟩ (by decide)⟩

theorem estimatesFrom_chosen (reads : ChunkInfo → Result ChunkSizes) (info : Info)
    (fileSize : Int) (chunk : ChunkInfo)
    (hc : info.ChunkInfos[representativeIndex info.ChunkInfos.length]? = some chunk) :
    estimatesFrom reads info fileSize
      = match reads chunk with
        | .error err => .error err
        | .panic msg => .panic msg
        | .ok sizes =>
          .ok ⟨chunk, sizes.compression, info.ChunkInfos.length,
            uncompressedVolume info.ChunkInfos.length sizes.chunkDecompressedSize,
            compressedVolume info.ChunkInfos.length sizes.compressedSize fileSize⟩ := by
  have hrep : representativeChunk info.ChunkInfos = some chunk := hc
  unfold estimatesFrom
  rw [hrep]

theorem estimatesFrom_representativeChunk (reads : ChunkInfo → Result ChunkSizes) (info : Info)
    (fileSize : Int) (est : Estimates) (h : estimatesFrom reads info fileSize = .ok est) :
    info.ChunkInfos[representativeIndex info.ChunkInfos.length]? = some est.representativeChunk := by
  unfold estimatesFrom at h
  cases h1 : representativeChunk info.ChunkInfos with
  | none => simp only [h1] at h; cases h
  | some chunk =>
    cases h2 : reads chunk with
    | error e => simp only [h1, h2] at h; cases h
    | panic e => simp only [h1, h2] at h; cases h
    | ok sizes =>
      simp only [h1, h2, Result.ok.injEq] at h
      rw [← h]
      exact h1

/-- C4: for an index with a non-empty list of `n` chunk records, `prepShadyEstimates` reads
the record at index 0 when `n` is 1 or 2 and at index `n-2` when `n` is 3 or more: the index
is within bounds, the run is the reads of that record followed by the extrapolation, and
every successful run reports that record as its representative chunk; for 1, 2, 3, 5 and
100 records the index is 0, 0, 1, 3 and 98. -/
theorem representativeChunk_selection (info : Info) (h : info.ChunkInfos ≠ []) :
    representativeIndex info.ChunkInfos.length < info.ChunkInfos.length
      ∧ representativeIndex info.ChunkInfos.length
          = (if info.ChunkInfos.length ≤ 2 then 0 else info.ChunkInfos.length - 2)
      ∧ representativeChunk info.ChunkInfos
          = info.ChunkInfos[representativeIndex info.ChunkInfos.length]?
      ∧ (∃ chunk, info.ChunkInfos[representativeIndex info.ChunkInfos.length]? = some chunk
          ∧ ∀ (getHeaderValue : List Char → String → Except String (List Char))
              (rs : ReadSeeker) (fileSize : Int),
              prepShadyEstimates getHeaderValue rs info fileSize
                  = (match readChunkSizes getHeaderValue rs chunk with
                    | .error err => .error err
                    | .panic msg => .panic msg
                    | .ok sizes =>
                      .ok ⟨chunk, sizes.compression, info.ChunkInfos.length,
                        uncompressedVolume info.ChunkInfos.length sizes.chunkDecompressedSize,
                        compressedVolume info.ChunkInfos.length sizes.compressedSize fileSize⟩)
                ∧ ∀ est, prepShadyEstimates getHeaderValue rs info fileSize = .ok est →
                    est.representativeChunk = chunk)
      ∧ [representativeIndex 1, representativeIndex 2, representativeIndex 3,
          representativeIndex 5, representativeIndex 100] = [0, 0, 1, 3, 98] := by
  have hpos : 0 < info.ChunkInfos.length := List.length_pos.2 h
  have hlt : representativeIndex info.ChunkInfos.length < info.ChunkInfos.length := by
    unfold representativeIndex; split_ifs <;> omega
  refine ⟨hlt, ?_, rfl, ?_, by decide⟩
  · unfold representativeIndex; split_ifs <;> omega
  · refine ⟨info.ChunkInfos[representativeIndex info.ChunkInfos.length],
      List.getElem?_eq_getElem hlt, ?_⟩
    intro ghv rs fileSize
    have hrun : prepShadyEstimates ghv rs info fileSize
        = estimatesFrom (readChunkSizes ghv rs) info fileSize := rfl
    rw [hrun]
    generalize readChunkSizes ghv rs = reads
    refine ⟨estimatesFrom_chosen reads info fileSize _ (List.getElem?_eq_getElem hlt), ?_⟩
    intro est hest
    have h1 := estimatesFrom_representativeChunk reads info fileSize est hest
    rw [List.getElem?_eq_getElem hlt] at h1
    exact (Option.some.inj h1).symm

/-- C4, on the example file with five chunk records: the fourth one (index 3) is read and
reported. -/
theorem representativeChunk_selection_witness :
    exampleInfo.ChunkInfos ≠ []
      ∧ representativeIndex exampleInfo.ChunkInfos.length = 3
      ∧ representativeChunk exampleInfo.ChunkInfos = some ⟨0, 40, 49, 1, [(0, 1)]⟩
      ∧ prepShadyEstimates exampleGetHeaderValue exampleFile exampleInfo 1000
          = .ok ⟨⟨0, 40, 49, 1, [(0, 1)]⟩, "lz4".toList, 5, 20480, 1000⟩ :=
  ⟨by decide,
    (representativeChunk_selection exampleInfo (by decide)).2.1.trans (by decide),
    (representativeChunk_selection exampleInfo (by decide)).2.2.1.trans (by decide),
    by decide⟩

/-! ## `formatDuration`: proofs -/

theorem scaleLoop_zero (fuel : Nat) (d : Int) (hd : 0 ≤ d) : scaleLoop fuel 0 d = some 0 := by
  cases fuel with
  | zero => simp [scaleLoop, hd]
  | succ f => simp [scaleLoop, hd]

theorem scaleLoop_pow (d : Int) (hd : 0 ≤ d) (j : Nat) :
    ∀ fuel, j + 1 ≤ fuel → scaleLoop fuel (10 ^ j) d = some (scaleOf j d) := by
  induction j with
  | zero =>
    intro fuel hf
    obtain ⟨f, rfl⟩ : ∃ f, fuel = f + 1 := ⟨fuel - 1, by omega⟩
    simp only [scaleLoop, pow_zero, scaleOf]
    have : Int.tdiv 1 10 = 0 := by decide
    rw [this, scaleLoop_zero f d hd]
    by_cases h : 1 ≤ d
    · have : ¬ (1 > d) := by omega
      simp [h, this]
    · have : 1 > d := by omega
      simp [h, this]
  | succ j ih =>
    intro fuel hf
    obtain ⟨f, rfl⟩ : ∃ f, fuel = f + 1 := ⟨fuel - 1, by omega⟩
    have hdiv : Int.tdiv ((10 : Int) ^ (j + 1)) 10 = 10 ^ j := by
      rw [pow_succ]
      exact Int.mul_tdiv_cancel _ (by norm_num)
    simp only [scaleLoop, scaleOf, hdiv]
    rw [ih f (by omega)]
    by_cases h : (10 : Int) ^ (j + 1) ≤ d
    · have : ¬ ((10 : Int) ^ (j + 1) > d) := by omega
      simp [h, this]
    · have : (10 : Int) ^ (j + 1) > d := by omega
      simp [h, this]

theorem scaleLoop_neg (d : Int) (hd : d < 0) (fuel : Nat) :
    ∀ scale, 0 ≤ scale → scaleLoop fuel scale d = none := by
  induction fuel with
  | zero =>
    intro scale hs
    have : scale > d := by omega
    simp [scaleLoop, this]
  | succ f ih =>
    intro scale hs
    have : scale > d := by omega
    simp only [scaleLoop, this, if_true]
    exact ih _ (Int.tdiv_nonneg hs (by norm_num))

theorem lessThanHalf_iff (r m : Int) (hr : 0 ≤ r) (hrm : r < m) (hm : m < 2 ^ 62) :
    lessThanHalf r m = true ↔ 2 * r < m := by
  unfold lessThanHalf toUint64
  rw [decide_eq_true_iff]
  omega

theorem durationRound_nonneg (d m : Int) (hd : 0 ≤ d) (hd2 : d < 2 ^ 63) (hm : 0 < m)
    (hm2 : m < 2 ^ 62) (hov : 2 * (d % m) < m ∨ d + m - d % m < 2 ^ 63) :
    durationRound d m = if 2 * (d % m) < m then d - d % m else d + m - d % m := by
  have hr0 : 0 ≤ d % m := Int.emod_nonneg d (by omega)
  have hr1 : d % m < m := Int.emod_lt_of_pos d hm
  have htm : Int.tmod d m = d % m := Int.tmod_eq_emod hd (by omega)
  unfold durationRound
  rw [if_neg (by omega), htm, if_neg (by omega)]
  by_cases h : 2 * (d % m) < m
  · rw [if_pos ((lessThanHalf_iff _ _ hr0 hr1 hm2).2 h), if_pos h]
    unfold wrap64; omega
  · have hl : ¬ (lessThanHalf (d % m) m = true) := fun hc => h ((lessThanHalf_iff _ _ hr0 hr1 hm2).1 hc)
    rw [if_neg hl, if_neg h]
    have hlt : d + m - d % m < 2 ^ 63 := by
      rcases hov with h' | h'
      · exact absurd h' h
      · exact h'
    have hw : wrap64 (d + m - d % m) = d + m - d % m := by unfold wrap64; omega
    simp only [hw]
    rw [if_pos (by omega)]

theorem round_spec (d m : Int) (hm : 0 < m) :
    m ∣ (if 2 * (d % m) < m then d - d % m else d + m - d % m)
      ∧ 2 * (d - (if 2 * (d % m) < m then d - d % m else d + m - d % m)) < m
      ∧ 2 * ((if 2 * (d % m) < m then d - d % m else d + m - d % m) - d) ≤ m := by
  have hr0 : 0 ≤ d % m := Int.emod_nonneg d (by omega)
  have hr1 : d % m < m := Int.emod_lt_of_pos d hm
  have hdiv : m ∣ d - d % m := Int.dvd_sub_of_emod_eq rfl
  by_cases h : 2 * (d % m) < m
  · simp only [if_pos h]
    exact ⟨hdiv, by omega, by omega⟩
  · simp only [if_neg h]
    refine ⟨?_, by omega, by omega⟩
    have : d + m - d % m = (d - d % m) + m := by ring
    rw [this]
    exact Int.dvd_add hdiv (Int.dvd_refl m)

theorem scaleOf_bounds (d : Int) (hd : 0 ≤ d) (j : Nat) : 0 ≤ scaleOf j d ∧ scaleOf j d ≤ d := by
  induction j with
  | zero => unfold scaleOf; split_ifs <;> omega
  | succ j ih =>
    unfold scaleOf
    split_ifs with h
    · exact ⟨by positivity, h⟩
    · exact ih

theorem scaleOf_eq (d : Int) (j : Nat) :
    ∀ k, k ≤ j → (10 : Int) ^ k ≤ d → (d < 10 ^ (k + 1) ∨ k = j) → scaleOf j d = 10 ^ k := by
  induction j with
  | zero =>
    intro k hk h1 _
    have : k = 0 := by omega
    subst this
    simp only [pow_zero] at h1
    simp [scaleOf, h1]
  | succ j ih =>
    intro k hk h1 h2
    by_cases hkj : k = j + 1
    · subst hkj
      simp [scaleOf, h1]
    · have hlt : d < 10 ^ (k + 1) := by
        rcases h2 with h | h
        · exact h
        · exact absurd h hkj
      have hmono : (10 : Int) ^ (k + 1) ≤ 10 ^ (j + 1) :=
        pow_le_pow_right₀ (by norm_num) (by omega)
      have hn : ¬ ((10 : Int) ^ (j + 1) ≤ d) := by omega
      simp only [scaleOf, if_neg hn]
      exact ih k (by omega) h1 (Or.inl hlt)

/-- C9 (amended): for a duration `d` from 0 up to 9223372036.5 s, `formatDuration` ends
within 12 divisions; it displays `d` itself below 100 ns, and otherwise `d` rounded to the
nearest multiple of `10^k/100`, halves upward, where `10^k` is the largest power of ten
nanoseconds that is at most `d` and at most 100 s (`k <= 11`). -/
theorem formatDuration_rounds (d : Int) (fuel : Nat) (hd : 0 ≤ d)
    (hmax : d < 9223372036500000000) (hf : 12 ≤ fuel) :
    ∃ r, formatDuration fuel d = some r ∧ (d < 100 → r = d)
      ∧ ∀ k : Nat, 2 ≤ k → k ≤ 11 → (10 : Int) ^ k ≤ d → (d < 10 ^ (k + 1) ∨ k = 11) →
          (10 : Int) ^ (k - 2) ∣ r ∧ 2 * (d - r) < 10 ^ (k - 2) ∧ 2 * (r - d) ≤ 10 ^ (k - 2) := by
  have h100 : (100 * second : Int) = 10 ^ 11 := by decide
  have hs := scaleLoop_pow d hd 11 fuel (by omega)
  refine ⟨durationRound d (Int.tdiv (scaleOf 11 d) 100), ?_, ?_, ?_⟩
  · unfold formatDuration
    rw [h100, hs]
  · intro hsmall
    obtain ⟨b0, b1⟩ := scaleOf_bounds d hd 11
    have : Int.tdiv (scaleOf 11 d) 100 = 0 := Int.tdiv_eq_zero_of_lt b0 (by omega)
    rw [this]
    simp [durationRound]
  · intro k hk2 hk11 hk hlt
    rw [scaleOf_eq d 11 k hk11 hk hlt]
    have hsplit : (10 : Int) ^ k = 10 ^ (k - 2) * 100 := by
      have : k = (k - 2) + 2 := by omega
      conv_lhs => rw [this, pow_add]
      norm_num
    have hdiv : Int.tdiv ((10 : Int) ^ k) 100 = 10 ^ (k - 2) := by
      rw [hsplit]
      exact Int.mul_tdiv_cancel _ (by norm_num)
    rw [hdiv]
    have hm0 : (0 : Int) < 10 ^ (k - 2) := by positivity
    have hm9 : (10 : Int) ^ (k - 2) ≤ 10 ^ 9 := pow_le_pow_right₀ (by norm_num) (by omega)
    have hov : 2 * (d % 10 ^ (k - 2)) < 10 ^ (k - 2)
        ∨ d + 10 ^ (k - 2) - d % 10 ^ (k - 2) < 2 ^ 63 := by
      by_cases h11 : k = 11
      · subst h11
        norm_num
        omega
      · right
        have hm8 : (10 : Int) ^ (k - 2) ≤ 10 ^ 8 := pow_le_pow_right₀ (by norm_num) (by omega)
        have := Int.emod_nonneg d (show (10 : Int) ^ (k - 2) ≠ 0 by omega)
        norm_num at hm8 ⊢
        omega
    rw [durationRound_nonneg d _ hd (by omega) hm0 (by norm_num at hm9 ⊢; omega) hov]
    exact round_spec d _ hm0

/-- C9 (amended), at 12.3456789 s: `formatDuration` displays 12.3 s. -/
theorem formatDuration_rounds_witness :
    (0 : Int) ≤ 12345678900 ∧ (12345678900 : Int) < 9223372036500000000 ∧ 12 ≤ 12
      ∧ ∃ r, formatDuration 12 12345678900 = some r ∧ ((12345678900 : Int) < 100 → r = 12345678900)
        ∧ ∀ k : Nat, 2 ≤ k → k ≤ 11 → (10 : Int) ^ k ≤ 12345678900 →
          ((12345678900 : Int) < 10 ^ (k + 1) ∨ k = 11) →
          (10 : Int) ^ (k - 2) ∣ r ∧ 2 * (12345678900 - r) < 10 ^ (k - 2)
            ∧ 2 * (r - 12345678900) ≤ 10 ^ (k - 2) :=
  ⟨by decide, by decide, by decide,
    formatDuration_rounds 12345678900 12 (by decide) (by decide) (by decide)⟩

/-- C9 as stated fails: on the negative duration -1 ns the loop of `formatDuration` never
ends, whatever the number of divisions allowed; a duration of 20 min 34.56789 s, whose
largest power of ten is 1000 s, is rounded to the second (1235 s) and not to 10 s; and the
multi-minute duration 2 min 3.456789 s is displayed as 2 min 3 s, a whole number of seconds.
The duration -1 ns is what `printInfo` computes from a start time of 1 and an end time of 0. -/
theorem formatDuration_counterexample :
    (∀ fuel, formatDuration fuel (-1) = none)
      ∧ formatDuration 12 1234567890123 = some 1235000000000
      ∧ (10 : Int) ^ 12 ≤ 1234567890123 ∧ (1234567890123 : Int) < 10 ^ 13
      ∧ ¬ ((10 : Int) ^ 12 / 100 ∣ 1235000000000)
      ∧ formatDuration 12 123456789000 = some 123000000000
      ∧ infoDuration ⟨1, 0, 0, [], []⟩ = -1 := by
  refine ⟨?_, by decide, by decide, by decide, by decide, by decide, by decide⟩
  intro fuel
  unfold formatDuration
  rw [scaleLoop_neg (-1) (by decide) fuel _ (by decide)]

/-! ## `writeMessage`: proofs -/

theorem digitChar_spec (k : Nat) (hk : k < 10) :
    (Nat.digitChar k).isDigit = true ∧ (Nat.digitChar k).toNat - 48 = k
      ∧ (k ≠ 0 → Nat.digitChar k ≠ '0') ∧ (k = 0 → Nat.digitChar k = '0') := by
  interval_cases k <;> decide

theorem toDigitsCore_append (fuel : Nat) :
    ∀ (n : Nat) (ds : List Char),
      Nat.toDigitsCore 10 fuel n ds = Nat.toDigitsCore 10 fuel n [] ++ ds := by
  induction fuel with
  | zero => intro n ds; simp [Nat.toDigitsCore]
  | succ f ih =>
    intro n ds
    simp only [Nat.toDigitsCore]
    split_ifs with h
    · simp
    · rw [ih (n / 10) (Nat.digitChar (n % 10) :: ds), ih (n / 10) [Nat.digitChar (n % 10)]]
      simp

theorem digitsVal_append_singleton (l : List Char) (c : Char) :
    digitsVal (l ++ [c]) = digitsVal l * 10 + (c.toNat - 48) := by
  simp [digitsVal, List.foldl_append]

theorem toDigitsCore_spec (fuel : Nat) :
    ∀ n, n < fuel →
      (∀ c ∈ Nat.toDigitsCore 10 fuel n [], c.isDigit = true)
        ∧ digitsVal (Nat.toDigitsCore 10 fuel n []) = n
        ∧ Nat.toDigitsCore 10 fuel n [] ≠ []
        ∧ (n ≠ 0 → (Nat.toDigitsCore 10 fuel n []).head? ≠ some '0')
        ∧ (n = 0 → Nat.toDigitsCore 10 fuel n [] = ['0']) := by
  induction fuel with
  | zero => intro n hn; omega
  | succ f ih =>
    intro n hn
    obtain ⟨d1, d2, d3, d4⟩ := digitChar_spec (n % 10) (Nat.mod_lt _ (by norm_num))
    simp only [Nat.toDigitsCore]
    by_cases h : n / 10 = 0
    · rw [if_pos h]
      have hlt : n < 10 := by omega
      have hmod : n % 10 = n := Nat.mod_eq_of_lt hlt
      refine ⟨by simpa using d1, ?_, by simp, ?_, ?_⟩
      · simp only [digitsVal, List.foldl_cons, List.foldl_nil]
        omega
      · intro hn0
        simpa using d3 (by omega)
      · intro hn0
        simp [d4 (by omega)]
    · rw [if_neg h, toDigitsCore_append]
      have hq : n / 10 < f := by omega
      obtain ⟨i1, i2, i3, i4, _⟩ := ih (n / 10) hq
      refine ⟨?_, ?_, by simp [i3], ?_, ?_⟩
      · intro c hc
        rcases List.mem_append.1 hc with hc | hc
        · exact i1 c hc
        · simp at hc; rw [hc]; exact d1
      · rw [digitsVal_append_singleton, i2, d2]
        omega
      · intro _
        cases hl : Nat.toDigitsCore 10 f (n / 10) [] with
        | nil => exact absurd hl i3
        | cons a rest =>
          have := i4 h
          rw [hl] at this
          simpa using this
      · intro hn0
        omega

theorem parseUint_eq (l : List Char) (hne : l ≠ []) (hd : ∀ c ∈ l, c.isDigit = true) :
    parseUint l = some (digitsVal l) := by
  have key : ∀ (l : List Char), (∀ c ∈ l, c.isDigit = true) → ∀ v : Nat,
      l.foldl (fun acc c =>
        match acc with
        | none => none
        | some v => if c.isDigit then some (v * 10 + (c.toNat - 48)) else none) (some v)
        = some (l.foldl (fun v c => v * 10 + (c.toNat - 48)) v) := by
    intro l
    induction l with
    | nil => intro _ v; rfl
    | cons c rest ih =>
      intro h v
      have hc : c.isDigit = true := h c (by simp)
      simp only [List.foldl_cons, hc, if_true]
      exact ih (fun x hx => h x (by simp [hx])) _
  unfold parseUint digitsVal
  rw [if_neg hne]
  exact key l hd 0

theorem sprintfD_spec (n : Nat) :
    parseUint (sprintfD n) = some n
      ∧ (∀ c ∈ sprintfD n, c.isDigit = true)
      ∧ sprintfD n ≠ []
      ∧ (n ≠ 0 → (sprintfD n).head? ≠ some '0')
      ∧ (n = 0 → sprintfD n = ['0']) := by
  obtain ⟨h1, h2, h3, h4, h5⟩ := toDigitsCore_spec (n + 1) n (by omega)
  unfold sprintfD Nat.toDigits
  refine ⟨?_, h1, h3, h4, h5⟩
  rw [parseUint_eq _ h3 h1, h2]

theorem writeMessage_ok (w : IOWriter) (hw : ∀ o p, w o p = none) (out : List Char)
    (topic : String) (time : Nat) (data : List Char) :
    writeMessage w out topic time data = (out ++ record topic time data, none) := by
  simp [writeMessage, IOWriter.write, hw, record]

/-- C5: on a writer that never fails `writeMessage` appends to the output exactly the
opening text, the topic, the time key, the decimal digits of the timestamp, the data key,
the payload verbatim, the closing brace and a newline, and returns no error; the digits read
back to the timestamp exactly. -/
theorem writeMessage_emits (w : IOWriter) (hw : ∀ o p, w o p = none) (out : List Char)
    (topic : String) (time : Nat) (data : List Char) :
    writeMessage w out topic time data
        = (out ++ ("\x7b\"topic\": \"".toList ++ topic.toList ++ "\", \"time\": ".toList
            ++ sprintfD time ++ ", \"data\": ".toList ++ data ++ "\x7d\n".toList), none)
      ∧ parseUint (sprintfD time) = some time := by
  refine ⟨?_, (sprintfD_spec time).1⟩
  rw [writeMessage_ok w hw]
  rfl

/-- C5, at the largest `uint64` timestamp. -/
theorem writeMessage_emits_witness :
    (∀ o p, okWriter o p = none)
      ∧ writeMessage okWriter [] "/a" 18446744073709551615 "\x7b\x7d".toList
        = ("\x7b\"topic\": \"/a\", \"time\": 18446744073709551615, \"data\": \x7b\x7d\x7d\n".toList,
            none)
      ∧ parseUint (sprintfD 18446744073709551615) = some 18446744073709551615 :=
  ⟨fun _ _ => rfl,
    (writeMessage_emits okWriter (fun _ _ => rfl) [] "/a" 18446744073709551615
      "\x7b\x7d".toList).1.trans (by decide),
    (writeMessage_emits okWriter (fun _ _ => rfl) [] "/a" 18446744073709551615
      "\x7b\x7d".toList).2⟩

/-! ## The extraction handler: JSON validity of a record -/

theorem lexRun_append (s : LexState) (a b : List Char) :
    lexRun s (a ++ b) = lexRun (lexRun s a) b := by
  simp [lexRun, List.foldl_append]

theorem lexRun_cons (s : LexState) (c : Char) (l : List Char) :
    lexRun s (c :: l) = lexRun (lexStep s c) l := rfl

theorem lexRun_noQuote (l : List Char) (h : ∀ c ∈ l, c ≠ '"') : lexRun .out l = .out := by
  induction l with
  | nil => rfl
  | cons c rest ih =>
    rw [lexRun_cons]
    have : c ≠ '"' := h c (by simp)
    simp only [lexStep, if_neg this]
    exact ih (fun x hx => h x (by simp [hx]))

theorem lexRun_ws (l : List Char) (h : Ws l) : lexRun .out l = .out := by
  apply lexRun_noQuote
  intro c hc heq
  have := h c hc
  rw [heq] at this
  exact absurd this (by decide)

theorem isPlain_lex (c : Char) (h : isPlain c = true) : lexStep .str c = .str := by
  unfold isPlain at h
  simp only [Bool.and_eq_true, bne_iff_ne, ne_eq, decide_eq_true_eq] at h
  simp [lexStep, h.1.2, h.2]

theorem lexRun_chars (l : List Char) (h : JsonChars l) : lexRun .str l = .str := by
  induction h with
  | nil => rfl
  | plain c rest hc _ ih => rw [lexRun_cons, isPlain_lex c hc]; exact ih
  | escape c rest _ _ ih =>
    rw [lexRun_cons, lexRun_cons]
    exact ih
  | unicode a b c d rest ha hb hc hd _ ih =>
    have hx : ∀ x, isHex x = true → lexStep .str x = .str := by
      intro x hx
      have h1 : x ≠ '"' := by rintro rfl; exact absurd hx (by decide)
      have h2 : x ≠ '\\' := by rintro rfl; exact absurd hx (by decide)
      simp [lexStep, h1, h2]
    rw [lexRun_cons, lexRun_cons, lexRun_cons, lexRun_cons, lexRun_cons, lexRun_cons]
    show lexRun (lexStep (lexStep (lexStep (lexStep .str a) b) c) d) rest = .str
    rw [hx a ha, hx b hb, hx c hc, hx d hd]
    exact ih

theorem lexRun_string (l : List Char) (h : JsonString l) : lexRun .out l = .out := by
  obtain ⟨body, rfl, hb⟩ := h
  rw [lexRun_append, lexRun_cons]
  show lexRun (lexRun .str body) ['"'] = .out
  rw [lexRun_chars body hb]
  rfl

theorem digits_noQuote (l : List Char) (h : Digits l) : ∀ c ∈ l, c ≠ '"' := by
  intro c hc heq
  have := h.2 c hc
  rw [heq] at this
  exact absurd this (by decide)

theorem lexRun_number (l : List Char) (h : JsonNumber l) : lexRun .out l = .out := by
  obtain ⟨sign, int, frac, exp, rfl, hs, hi, hf, he⟩ := h
  apply lexRun_noQuote
  intro c hc
  simp only [List.mem_append] at hc
  rcases hc with ((hc | hc) | hc) | hc
  · rcases hs with rfl | rfl
    · simp at hc
    · simp at hc; rw [hc]; decide
  · rcases hi with rfl | ⟨hd, _⟩
    · simp at hc; rw [hc]; decide
    · exact digits_noQuote int hd c hc
  · rcases hf with rfl | ⟨ds, rfl, hd⟩
    · simp at hc
    · simp only [List.mem_cons] at hc
      rcases hc with rfl | hc
      · decide
      · exact digits_noQuote ds hd c hc
  · rcases he with rfl | ⟨e, s, ds, rfl, he, hs, hd⟩
    · simp at hc
    · simp only [List.mem_cons, List.mem_append] at hc
      rcases hc with (rfl | hc) | hc
      · rcases he with rfl | rfl <;> decide
      · rcases hs with rfl | rfl | rfl
        · simp at hc
        · simp at hc; rw [hc]; decide
        · simp at hc; rw [hc]; decide
      · exact digits_noQuote ds hd c hc

theorem lexStep_out (c : Char) (h : c ≠ '"') : lexStep .out c = .out := by
  simp [lexStep, h]

theorem lexRun_json (k : JsonKind) (l : List Char) (h : Json k l) : lexRun .out l = .out := by
  induction h with
  | string ws1 s ws2 h1 hs h2 =>
    simp only [lexRun_append, lexRun_ws ws1 h1, lexRun_string s hs, lexRun_ws ws2 h2]
  | number ws1 n ws2 h1 hn h2 =>
    simp only [lexRun_append, lexRun_ws ws1 h1, lexRun_number n hn, lexRun_ws ws2 h2]
  | litTrue ws1 ws2 h1 h2 =>
    simp only [lexRun_append, lexRun_cons, lexRun_ws ws1 h1]
    exact lexRun_ws ws2 h2
  | litFalse ws1 ws2 h1 h2 =>
    simp only [lexRun_append, lexRun_cons, lexRun_ws ws1 h1]
    exact lexRun_ws ws2 h2
  | litNull ws1 ws2 h1 h2 =>
    simp only [lexRun_append, lexRun_cons, lexRun_ws ws1 h1]
    exact lexRun_ws ws2 h2
  | emptyObject ws1 ws ws2 h1 h h2 =>
    simp only [lexRun_append, lexRun_cons, lexRun_ws ws1 h1,
      lexStep_out '\x7b' (by decide), lexRun_ws ws h, lexStep_out '\x7d' (by decide),
      lexRun_ws ws2 h2]
  | object ws1 ms ws2 h1 _ h2 ih =>
    simp only [lexRun_append, lexRun_cons, lexRun_ws ws1 h1,
      lexStep_out '\x7b' (by decide), ih, lexStep_out '\x7d' (by decide), lexRun_ws ws2 h2]
  | emptyArray ws1 ws ws2 h1 h h2 =>
    simp only [lexRun_append, lexRun_cons, lexRun_ws ws1 h1,
      lexStep_out '[' (by decide), lexRun_ws ws h, lexStep_out ']' (by decide),
      lexRun_ws ws2 h2]
  | array ws1 es ws2 h1 _ h2 ih =>
    simp only [lexRun_append, lexRun_cons, lexRun_ws ws1 h1,
      lexStep_out '[' (by decide), ih, lexStep_out ']' (by decide), lexRun_ws ws2 h2]
  | member ws1 k ws2 v h1 hk h2 _ ih =>
    simp only [lexRun_append, lexRun_cons, lexRun_ws ws1 h1, lexRun_string k hk,
      lexRun_ws ws2 h2, lexStep_out ':' (by decide), ih]
  | memberCons ws1 k ws2 v rest h1 hk h2 _ _ ihv ihr =>
    simp only [lexRun_append, lexRun_cons, lexRun_ws ws1 h1, lexRun_string k hk,
      lexRun_ws ws2 h2, lexStep_out ':' (by decide), ihv, lexStep_out ',' (by decide), ihr]
  | element v _ ih => exact ih
  | elementCons v rest _ _ ihv ihr =>
    simp only [lexRun_append, lexRun_cons, ihv, lexStep_out ',' (by decide), ihr]

theorem ws_append {a b : List Char} (ha : Ws a) (hb : Ws b) : Ws (a ++ b) := by
  intro c hc
  rcases List.mem_append.1 hc with h | h
  · exact ha c h
  · exact hb c h

theorem ws_nil : Ws [] := by intro c hc; cases hc

theorem ws_space : Ws [' '] := by
  intro c hc
  simp at hc
  rw [hc]; decide

theorem json_value_prepend (ws v : List Char) (hws : Ws ws) (h : Json .value v) :
    Json .value (ws ++ v) := by
  cases h with
  | string ws1 s ws2 h1 hs h2 =>
    have := Json.string (ws ++ ws1) s ws2 (ws_append hws h1) hs h2
    simpa [List.append_assoc] using this
  | number ws1 n ws2 h1 hn h2 =>
    have := Json.number (ws ++ ws1) n ws2 (ws_append hws h1) hn h2
    simpa [List.append_assoc] using this
  | litTrue ws1 ws2 h1 h2 =>
    have := Json.litTrue (ws ++ ws1) ws2 (ws_append hws h1) h2
    simpa [List.append_assoc] using this
  | litFalse ws1 ws2 h1 h2 =>
    have := Json.litFalse (ws ++ ws1) ws2 (ws_append hws h1) h2
    simpa [List.append_assoc] using this
  | litNull ws1 ws2 h1 h2 =>
    have := Json.litNull (ws ++ ws1) ws2 (ws_append hws h1) h2
    simpa [List.append_assoc] using this
  | emptyObject ws1 w ws2 h1 hw h2 =>
    have := Json.emptyObject (ws ++ ws1) w ws2 (ws_append hws h1) hw h2
    simpa [List.append_assoc] using this
  | object ws1 ms ws2 h1 hm h2 =>
    have := Json.object (ws ++ ws1) ms ws2 (ws_append hws h1) hm h2
    simpa [List.append_assoc] using this
  | emptyArray ws1 w ws2 h1 hw h2 =>
    have := Json.emptyArray (ws ++ ws1) w ws2 (ws_append hws h1) hw h2
    simpa [List.append_assoc] using this
  | array ws1 es ws2 h1 he h2 =>
    have := Json.array (ws ++ ws1) es ws2 (ws_append hws h1) he h2
    simpa [List.append_assoc] using this

theorem jsonChars_of_plain (l : List Char) (h : ∀ c ∈ l, isPlain c = true) : JsonChars l := by
  induction l with
  | nil => exact JsonChars.nil
  | cons c rest ih =>
    exact JsonChars.plain c rest (h c (by simp)) (ih (fun x hx => h x (by simp [hx])))

theorem jsonChars_no_newline (l : List Char) (h : JsonChars l) : '\n' ∉ l := by
  induction h with
  | nil => simp
  | plain c rest hc _ ih =>
    intro hm
    rcases List.mem_cons.1 hm with h | h
    · rw [← h] at hc; exact absurd hc (by decide)
    · exact ih h
  | escape c rest hc _ ih =>
    intro hm
    simp only [List.mem_cons] at hm
    rcases hm with h | h | h
    · exact absurd h (by decide)
    · rw [← h] at hc; exact absurd hc (by decide)
    · exact ih h
  | unicode a b c d rest ha hb hc hd _ ih =>
    intro hm
    simp only [List.mem_cons] at hm
    rcases hm with h | h | h | h | h | h | h
    · exact absurd h (by decide)
    · exact absurd h (by decide)
    · rw [← h] at ha; exact absurd ha (by decide)
    · rw [← h] at hb; exact absurd hb (by decide)
    · rw [← h] at hc; exact absurd hc (by decide)
    · rw [← h] at hd; exact absurd hd (by decide)
    · exact ih h

theorem jsonNumber_sprintfD (n : Nat) : JsonNumber (sprintfD n) := by
  obtain ⟨_, h2, h3, h4, h5⟩ := sprintfD_spec n
  refine ⟨[], sprintfD n, [], [], by simp, Or.inl rfl, ?_, Or.inl rfl, Or.inl rfl⟩
  by_cases h0 : n = 0
  · exact Or.inl (h5 h0)
  · exact Or.inr ⟨⟨h3, h2⟩, h4 h0⟩

theorem digits_no_newline (n : Nat) : '\n' ∉ sprintfD n := by
  intro h
  exact absurd ((sprintfD_spec n).2.1 _ h) (by decide)

theorem jsonString_key (l : List Char) (h : ∀ c ∈ l, isPlain c = true) :
    JsonString ('"' :: l ++ ['"']) := ⟨l, rfl, jsonChars_of_plain l h⟩

theorem record_eq (topic : String) (time : Nat) (data : List Char) :
    record topic time data = recordBody topic time data ++ ['\n'] := by
  have : "\x7d\n".toList = ['\x7d'] ++ ['\n'] := by decide
  simp only [record, recordBody, this, List.append_assoc]

theorem recordBody_valid (topic : String) (time : Nat) (data : List Char)
    (htopic : JsonChars topic.toList) (hdata : Json .value data) :
    IsJsonObject (recordBody topic time data) ∧ HasStringTopic (recordBody topic time data)
      ∧ ('\n' ∉ data → '\n' ∉ recordBody topic time data) := by
  have kTopic : JsonString "\"topic\"".toList :=
    jsonString_key "topic".toList (by decide)
  have kTime : JsonString "\"time\"".toList :=
    jsonString_key "time".toList (by decide)
  have kData : JsonString "\"data\"".toList :=
    jsonString_key "data".toList (by decide)
  have sTopic : JsonString ('"' :: topic.toList ++ ['"']) := ⟨topic.toList, rfl, htopic⟩
  have v1 := Json.string [' '] _ [] ws_space sTopic ws_nil
  have v2 := Json.number [' '] _ [] ws_space (jsonNumber_sprintfD time) ws_nil
  have v3 := json_value_prepend [' '] data ws_space hdata
  have m3 := Json.member [' '] _ [] _ ws_space kData ws_nil v3
  have m23 := Json.memberCons [' '] _ [] _ _ ws_space kTime ws_nil v2 m3
  have ms := Json.memberCons [] _ [] _ _ ws_nil kTopic ws_nil v1 m23
  have e1 : "\x7b\"topic\": \"".toList = '\x7b' :: "\"topic\"".toList ++ [':', ' ', '"'] := by
    decide
  have e2 : "\", \"time\": ".toList = ['"', ',', ' '] ++ "\"time\"".toList ++ [':', ' '] := by
    decide
  have e3 : ", \"data\": ".toList = [',', ' '] ++ "\"data\"".toList ++ [':', ' '] := by
    decide
  have e4 : "\"topic\": ".toList = "\"topic\"".toList ++ [':', ' '] := by decide
  refine ⟨⟨_, ?_, ms⟩, ⟨_, _, sTopic, m23, ?_⟩, ?_⟩
  · simp only [recordBody, e1, e2, e3, List.append_assoc, List.cons_append, List.nil_append,
      List.singleton_append]
  · simp only [recordBody, e1, e2, e3, e4, List.append_assoc, List.cons_append,
      List.nil_append, List.singleton_append]
  · intro hd hm
    simp only [recordBody, List.mem_append] at hm
    rcases hm with (((((h | h) | h) | h) | h) | h) | h
    · exact absurd h (by decide)
    · exact jsonChars_no_newline _ htopic h
    · exact absurd h (by decide)
    · exact digits_no_newline time h
    · exact absurd h (by decide)
    · exact hd h
    · exact absurd h (by decide)

theorem jsonMessageHandler_ok {T : Type} (lib : TranscoderLib T) (w : IOWriter)
    (hw : ∀ o p, w o p = none) (s : HandlerState T) (conn : Connection) (msg : Message)
    (x : T) (data : List Char) (hx : transcoderFor lib s conn = .ok x)
    (ht : lib.transcode x msg.Data = (data, none)) :
    (jsonMessageHandler lib w s conn msg).2 = none
      ∧ (jsonMessageHandler lib w s conn msg).1.out
          = s.out ++ record conn.Topic msg.Time (s.jsondata ++ data)
      ∧ (jsonMessageHandler lib w s conn msg).1.jsondata = []
      ∧ (jsonMessageHandler lib w s conn msg).1.transcoders
          = (if (s.transcoders.lookup conn.Conn).isSome then s.transcoders
             else (conn.Conn, x) :: s.transcoders)
      ∧ (jsonMessageHandler lib w s conn msg).1.built
          = (if (s.transcoders.lookup conn.Conn).isSome then s.built
             else s.built ++ [(conn.Conn, packageName conn.Data.Type_,
                    conn.Data.MessageDefinition)]) := by
  unfold transcoderFor at hx
  unfold jsonMessageHandler
  cases hl : s.transcoders.lookup conn.Conn with
  | some x0 =>
    simp only [hl, Except.ok.injEq] at hx
    subst hx
    simp [transcodeAndWrite, ht, writeMessage_ok w hw]
  | none =>
    simp only [hl] at hx
    simp [hx, transcodeAndWrite, ht, writeMessage_ok w hw]

/-- C6 (amended): when the writer does not fail, the buffer is empty, the topic is the body
of a JSON string as it stands and the transcoded payload is a JSON value, the handler
appends one record: a JSON object whose first member is `topic` with a string value,
followed by a newline; when moreover the payload holds no newline, the record is exactly
one newline-terminated line. -/
theorem jsonMessageHandler_emits_json {T : Type} (lib : TranscoderLib T) (w : IOWriter)
    (hw : ∀ o p, w o p = none) (s : HandlerState T) (conn : Connection) (msg : Message)
    (x : T) (data : List Char) (hx : transcoderFor lib s conn = .ok x)
    (ht : lib.transcode x msg.Data = (data, none)) (hbuf : s.jsondata = [])
    (htopic : JsonChars conn.Topic.toList) (hdata : Json .value data) :
    (jsonMessageHandler lib w s conn msg).2 = none
      ∧ ∃ body, (jsonMessageHandler lib w s conn msg).1.out = s.out ++ (body ++ ['\n'])
        ∧ IsJsonObject body ∧ HasStringTopic body
        ∧ ('\n' ∉ data → ValidRecordLine (body ++ ['\n'])) := by
  obtain ⟨h1, h2, _⟩ := jsonMessageHandler_ok lib w hw s conn msg x data hx ht
  obtain ⟨v1, v2, v3⟩ := recordBody_valid conn.Topic msg.Time data htopic hdata
  refine ⟨h1, recordBody conn.Topic msg.Time data, ?_, v1, v2, ?_⟩
  · rw [h2, hbuf, List.nil_append, record_eq]
  · intro hn
    exact ⟨_, rfl, v3 hn, v1, v2⟩

/-- C6 (amended), on topic `/a` and payload `{}`. -/
theorem jsonMessageHandler_emits_json_witness :
    (∀ o p, okWriter o p = none)
      ∧ (jsonMessageHandler exampleLib okWriter HandlerState.init
            (exampleConn 0 "/a") ⟨0, 100, "\x7b\x7d".toList⟩).2 = none
      ∧ ∃ body, (jsonMessageHandler exampleLib okWriter HandlerState.init
            (exampleConn 0 "/a") ⟨0, 100, "\x7b\x7d".toList⟩).1.out
            = (HandlerState.init : HandlerState Unit).out ++ (body ++ ['\n'])
        ∧ IsJsonObject body ∧ HasStringTopic body
        ∧ ('\n' ∉ "\x7b\x7d".toList → ValidRecordLine (body ++ ['\n'])) :=
  ⟨fun _ _ => rfl,
    jsonMessageHandler_emits_json exampleLib okWriter (fun _ _ => rfl) HandlerState.init
      (exampleConn 0 "/a") ⟨0, 100, "\x7b\x7d".toList⟩ () "\x7b\x7d".toList rfl rfl rfl
      (jsonChars_of_plain _ (by decide))
      (Json.emptyObject [] [] [] ws_nil ws_nil ws_nil)⟩

/-- C6 as stated fails: with the topic `"` (one double quote) and the JSON payload `{}`
the handler emits `{"topic": """, "time": 100, "data": {}}`, which is not a JSON object;
and with the topic `/a` and the JSON payload `{`, newline, `}` the record spans two lines. -/
theorem jsonMessageHandler_counterexample :
    Json .value "\x7b\x7d".toList
      ∧ (jsonMessageHandler exampleLib okWriter HandlerState.init
            (exampleConn 0 "\"") ⟨0, 100, "\x7b\x7d".toList⟩).1.out
          = "\x7b\"topic\": \"\"\", \"time\": 100, \"data\": \x7b\x7d\x7d\n".toList
      ∧ ¬ (∃ body, "\x7b\"topic\": \"\"\", \"time\": 100, \"data\": \x7b\x7d\x7d\n".toList
            = body ++ ['\n'] ∧ IsJsonObject body)
      ∧ Json .value "\x7b\n\x7d".toList
      ∧ ¬ ValidRecordLine (jsonMessageHandler exampleLib okWriter HandlerState.init
            (exampleConn 0 "/a") ⟨0, 100, "\x7b\n\x7d".toList⟩).1.out := by
  refine ⟨Json.emptyObject [] [] [] ws_nil ws_nil ws_nil, by decide, ?_,
    Json.emptyObject [] ['\n'] [] ws_nil (by intro c hc; simp at hc; rw [hc]; decide) ws_nil,
    ?_⟩
  · rintro ⟨body, hl, ms, hb, hm⟩
    have hrun := lexRun_json _ ms hm
    have h2 : lexRun .out (body ++ ['\n']) = .out := by
      rw [hb]
      simp only [lexRun_append, lexRun_cons, lexStep_out '\x7b' (by decide), hrun]
      rfl
    rw [← hl] at h2
    exact absurd h2 (by decide)
  · rintro ⟨body, hl, hn, _, _⟩
    have hout : (jsonMessageHandler exampleLib okWriter HandlerState.init
        (exampleConn 0 "/a") ⟨0, 100, "\x7b\n\x7d".toList⟩).1.out
        = "\x7b\"topic\": \"/a\", \"time\": 100, \"data\": \x7b\n\x7d\x7d".toList ++ ['\n'] := by
      decide
    rw [hout] at hl
    have := List.append_inj_left' hl rfl
    rw [← this] at hn
    exact absurd hn (by decide)

/-! ## The extraction handler: one transcoder per connection -/

theorem stringsSplit_head (l : List Char) :
    (stringsSplit '/' l).headD [] = l.takeWhile (fun c => c != '/') := by
  induction l with
  | nil => rfl
  | cons c rest ih =>
    by_cases h : c = '/'
    · subst h
      simp [stringsSplit]
    · simp only [stringsSplit, if_neg h]
      have hb : (c != '/') = true := by simpa using h
      rw [List.takeWhile_cons, hb]
      cases hs : stringsSplit '/' rest with
      | nil => rw [hs] at ih; simp at ih ⊢; exact ih
      | cons seg segs => rw [hs] at ih; simp at ih ⊢; exact ih

theorem packageName_eq (type : String) : packageName type = namespaceOf type := by
  unfold packageName namespaceOf
  rw [stringsSplit_head]

theorem buildsFrom_eq_buildsAt (rest : List (Connection × Message)) :
    ∀ (seen : List Nat) (pre : List (Connection × Message)),
      (∀ c, c ∈ seen ↔ c ∈ pre.map (fun p => p.1.Conn)) →
      buildsFrom seen rest
        = (List.range rest.length).flatMap (fun i => buildsAt (pre ++ rest) (pre.length + i)) := by
  induction rest with
  | nil => intro seen pre _; simp [buildsFrom]
  | cons p rest ih =>
    intro seen pre hseen
    obtain ⟨conn, msg⟩ := p
    have hhead : buildsAt (pre ++ (conn, msg) :: rest) (pre.length + 0)
        = if conn.Conn ∈ seen then []
          else [(conn.Conn, namespaceOf conn.Data.Type_, conn.Data.MessageDefinition)] := by
      have hget : (pre ++ (conn, msg) :: rest)[pre.length + 0]? = some (conn, msg) := by
        rw [Nat.add_zero, List.getElem?_append_right (Nat.le_refl _)]
        simp
      have htake : List.take (pre.length + 0) (pre ++ (conn, msg) :: rest) = pre := by
        rw [Nat.add_zero, List.take_left]
      unfold buildsAt
      rw [hget, htake]
      simp only [← hseen conn.Conn]
    have htail : ∀ i, buildsAt (pre ++ (conn, msg) :: rest) (pre.length + (i + 1))
        = buildsAt ((pre ++ [(conn, msg)]) ++ rest) ((pre ++ [(conn, msg)]).length + i) := by
      intro i
      have e1 : pre ++ (conn, msg) :: rest = (pre ++ [(conn, msg)]) ++ rest := by simp
      have e2 : pre.length + (i + 1) = (pre ++ [(conn, msg)]).length + i := by
        simp; omega
      rw [e1, e2]
    rw [List.length_cons, List.range_succ_eq_map, List.flatMap_cons, List.flatMap_map, hhead]
    simp only [Function.comp, Nat.succ_eq_add_one, htail]
    by_cases hc : conn.Conn ∈ seen
    · have hs1 : ∀ c, c ∈ seen ↔ c ∈ (pre ++ [(conn, msg)]).map (fun p => p.1.Conn) := by
        intro c
        rw [List.map_append, List.mem_append, ← hseen c]
        constructor
        · intro h; exact Or.inl h
        · intro h
          rcases h with h | h
          · exact h
          · simp at h
            rw [h]; exact hc
      simp [buildsFrom, hc, ih seen (pre ++ [(conn, msg)]) hs1]
    · have hs1 : ∀ c, c ∈ conn.Conn :: seen
          ↔ c ∈ (pre ++ [(conn, msg)]).map (fun p => p.1.Conn) := by
        intro c
        rw [List.map_append, List.mem_append, ← hseen c, List.mem_cons]
        simp
        tauto
      simp [buildsFrom, hc, ih (conn.Conn :: seen) (pre ++ [(conn, msg)]) hs1]

theorem lookup_isSome_cons {T : Type} (m : List (Nat × T)) (k c : Nat) (x : T) :
    (((k, x) :: m).lookup c).isSome = (decide (c = k) || (m.lookup c).isSome) := by
  by_cases h : c = k
  · subst h; simp [List.lookup]
  · have h2 : (c == k) = false := by simpa using h
    simp [List.lookup, h2, h]

/-- The loop of `cat` over pairs when nothing fails, from any state whose cache holds
exactly the identifiers of `seen` and whose buffer is empty. -/
theorem scan_handler {T : Type} (lib : TranscoderLib T) (w : IOWriter)
    (hw : ∀ o p, w o p = none)
    (hnew : ∀ ns d, ∃ t, lib.newJSONTranscoder ns d = .ok t)
    (htr : ∀ t d, (lib.transcode t d).2 = none)
    (input : List (Connection × Message)) :
    ∀ (seen : List Nat) (s : HandlerState T),
      (∀ c, (s.transcoders.lookup c).isSome = true ↔ c ∈ seen) →
      (scan [jsonMessageHandler lib w] (input.map Except.ok) s).err = none
        ∧ (scan [jsonMessageHandler lib w] (input.map Except.ok) s).state.built
            = s.built ++ buildsFrom seen input
        ∧ ∀ c, ((scan [jsonMessageHandler lib w] (input.map Except.ok) s).state.transcoders.lookup
              c).map Except.ok
            = match s.transcoders.lookup c with
              | some x => some (Except.ok x)
              | none => (input.find? (fun p => p.1.Conn == c)).map (fun p =>
                  lib.newJSONTranscoder (namespaceOf p.1.Data.Type_)
                    p.1.Data.MessageDefinition) := by
  induction input with
  | nil =>
    intro seen s _
    refine ⟨rfl, by simp [scan, buildsFrom], ?_⟩
    intro c
    cases h : s.transcoders.lookup c <;> simp [scan, h]
  | cons p rest ih =>
    intro seen s hs
    obtain ⟨conn, msg⟩ := p
    obtain ⟨x, hx⟩ : ∃ x, transcoderFor lib s conn = .ok x := by
      unfold transcoderFor
      cases hl : s.transcoders.lookup conn.Conn with
      | some x0 => exact ⟨x0, rfl⟩
      | none => exact hnew _ _
    have ht : lib.transcode x msg.Data = ((lib.transcode x msg.Data).1, none) := by
      have := htr x msg.Data
      cases hp : lib.transcode x msg.Data with
      | mk a b => rw [hp] at this; simp at this; simp [this]
    obtain ⟨k1, _, _, k4, k5⟩ := jsonMessageHandler_ok lib w hw s conn msg x _ hx ht
    have step : runCallbacks [jsonMessageHandler lib w] s conn msg
        = ((jsonMessageHandler lib w s conn msg).1, none) := by
      cases hr : jsonMessageHandler lib w s conn msg with
      | mk s1 e =>
        rw [hr] at k1
        simp only at k1
        subst k1
        simp [runCallbacks, hr]
    simp only [List.map_cons, scan, step]
    by_cases hc : conn.Conn ∈ seen
    · have hsome : (s.transcoders.lookup conn.Conn).isSome = true := (hs _).2 hc
      rw [if_pos hsome] at k4 k5
      obtain ⟨i1, i2, i3⟩ := ih seen (jsonMessageHandler lib w s conn msg).1
        (by intro c; rw [k4]; exact hs c)
      refine ⟨i1, ?_, ?_⟩
      · rw [i2, k5]; simp [buildsFrom, hc]
      · intro c
        rw [i3 c, k4]
        cases hl : s.transcoders.lookup c with
        | some y => rfl
        | none =>
          have hne : (conn.Conn == c) = false := by
            cases hb : (conn.Conn == c) with
            | false => rfl
            | true =>
              have : conn.Conn = c := by simpa using hb
              rw [this, hl] at hsome
              cases hsome
          simp [List.find?, hne]
    · have hnone : ¬ ((s.transcoders.lookup conn.Conn).isSome = true) := fun h => hc ((hs _).1 h)
      rw [if_neg hnone] at k4 k5
      have hlk : s.transcoders.lookup conn.Conn = none := by
        cases hl : s.transcoders.lookup conn.Conn with
        | none => rfl
        | some y => rw [hl] at hnone; simp at hnone
      have hx2 : lib.newJSONTranscoder (namespaceOf conn.Data.Type_) conn.Data.MessageDefinition
          = .ok x := by
        unfold transcoderFor at hx
        rw [hlk] at hx
        rw [← packageName_eq]
        exact hx
      obtain ⟨i1, i2, i3⟩ := ih (conn.Conn :: seen) (jsonMessageHandler lib w s conn msg).1
        (by
          intro c
          rw [k4, lookup_isSome_cons]
          simp [hs c])
      refine ⟨i1, ?_, ?_⟩
      · rw [i2, k5, packageName_eq]; simp [buildsFrom, hc]
      · intro c
        rw [i3 c, k4]
        by_cases hcc : c = conn.Conn
        · subst hcc
          simp [List.lookup, hlk, List.find?, hx2]
        · have h2 : (c == conn.Conn) = false := by simpa using hcc
          have h3 : (conn.Conn == c) = false := by
            simpa using (fun h : conn.Conn = c => hcc h.symm)
          simp [List.lookup, h2, List.find?, h3]

theorem write_of_ok (w : IOWriter) (out p o1 : List Char) (h : w.write out p = (o1, none)) :
    o1 = out ++ p := by
  unfold IOWriter.write at h
  cases hw : w out p with
  | none => rw [hw] at h; exact (Prod.mk.inj h).1.symm
  | some e => rw [hw] at h; cases h

theorem writeMessage_of_ok (w : IOWriter) (out : List Char) (topic : String) (time : Nat)
    (data : List Char) (h : (writeMessage w out topic time data).2 = none) :
    (writeMessage w out topic time data).1 = out ++ record topic time data := by
  unfold writeMessage at h ⊢
  split at h
  · cases h
  · next o1 h1 =>
    have e1 := write_of_ok w _ _ _ h1
    split at h
    · cases h
    · next o2 h2 =>
      have e2 := write_of_ok w _ _ _ h2
      split at h
      · cases h
      · next o3 h3 =>
        have e3 := write_of_ok w _ _ _ h3
        split at h
        · cases h
        · next o4 h4 =>
          have e4 := write_of_ok w _ _ _ h4
          split at h
          · cases h
          · next o5 h5 =>
            have e5 := write_of_ok w _ _ _ h5
            split at h
            · cases h
            · next o6 h6 =>
              have e6 := write_of_ok w _ _ _ h6
              split at h
              · cases h
              · next o7 h7 =>
                have e7 := write_of_ok w _ _ _ h7
                simp only [e7, e6, e5, e4, e3, e2, e1, record, List.append_assoc]

theorem transcodeAndWrite_of_ok {T : Type} (lib : TranscoderLib T) (w : IOWriter)
    (s : HandlerState T) (x : T) (conn : Connection) (msg : Message)
    (h : (transcodeAndWrite lib w s x conn msg).2 = none) :
    (lib.transcode x msg.Data).2 = none
      ∧ (transcodeAndWrite lib w s x conn msg).1
          = { s with jsondata := [],
                     out := s.out ++ record conn.Topic msg.Time
                       (s.jsondata ++ (lib.transcode x msg.Data).1) } := by
  unfold transcodeAndWrite at h ⊢
  cases ht : lib.transcode x msg.Data with
  | mk written e =>
    cases e with
    | some err => rw [ht] at h; cases h
    | none =>
      rw [ht] at h
      simp only at h ⊢
      cases hwm : writeMessage w s.out conn.Topic msg.Time (s.jsondata ++ written) with
      | mk out1 e1 =>
        cases e1 with
        | some err => rw [hwm] at h; cases h
        | none =>
          have := writeMessage_of_ok w s.out conn.Topic msg.Time (s.jsondata ++ written)
            (by rw [hwm])
          rw [hwm] at this
          simp only at this
          simp [this]

/-- One call of the handler that returns no error: the transcoder is the cached one or a
newly built one, its `Transcode` succeeded, and the record was written. -/
theorem jsonMessageHandler_of_ok {T : Type} (lib : TranscoderLib T) (w : IOWriter)
    (s : HandlerState T) (conn : Connection) (msg : Message)
    (h : (jsonMessageHandler lib w s conn msg).2 = none) :
    ∃ x, transcoderFor lib s conn = .ok x
      ∧ (lib.transcode x msg.Data).2 = none
      ∧ (jsonMessageHandler lib w s conn msg).1.out
          = s.out ++ record conn.Topic msg.Time (s.jsondata ++ (lib.transcode x msg.Data).1)
      ∧ (jsonMessageHandler lib w s conn msg).1.jsondata = []
      ∧ (jsonMessageHandler lib w s conn msg).1.transcoders
          = (if (s.transcoders.lookup conn.Conn).isSome then s.transcoders
             else (conn.Conn, x) :: s.transcoders)
      ∧ (jsonMessageHandler lib w s conn msg).1.built
          = (if (s.transcoders.lookup conn.Conn).isSome then s.built
             else s.built ++ [(conn.Conn, packageName conn.Data.Type_,
                    conn.Data.MessageDefinition)]) := by
  unfold transcoderFor
  unfold jsonMessageHandler at h ⊢
  cases hl : s.transcoders.lookup conn.Conn with
  | some x0 =>
    simp only [hl] at h ⊢
    obtain ⟨a, b⟩ := transcodeAndWrite_of_ok lib w s x0 conn msg h
    exact ⟨x0, rfl, a, by rw [b], by rw [b], by rw [b]; rfl, by rw [b]; rfl⟩
  | none =>
    simp only [hl] at h ⊢
    cases hn : lib.newJSONTranscoder (packageName conn.Data.Type_)
        conn.Data.MessageDefinition with
    | error e => rw [hn] at h; cases h
    | ok x =>
      simp only [hn] at h ⊢
      obtain ⟨a, b⟩ := transcodeAndWrite_of_ok lib w _ x conn msg h
      exact ⟨x, rfl, a, by rw [b], by rw [b], by rw [b]; rfl, by rw [b]; rfl⟩


theorem transcoderOf_hit {T : Type} (lib : TranscoderLib T) (cache : List (Nat × T))
    (p : Connection × Message) (rest : List (Connection × Message)) (x : T)
    (hl : cache.lookup p.1.Conn = some x) (c : Nat) :
    transcoderOf lib cache (p :: rest) c = transcoderOf lib cache rest c := by
  unfold transcoderOf
  cases hc : cache.lookup c with
  | some t => rfl
  | none =>
    have hne : (p.1.Conn == c) = false := by
      cases hb : (p.1.Conn == c) with
      | false => rfl
      | true =>
        have : p.1.Conn = c := by simpa using hb
        rw [this, hc] at hl
        cases hl
    simp [firstTranscoder, List.find?, hne]

theorem transcoderOf_miss {T : Type} (lib : TranscoderLib T) (cache : List (Nat × T))
    (p : Connection × Message) (rest : List (Connection × Message)) (x : T)
    (hl : cache.lookup p.1.Conn = none)
    (hn : lib.newJSONTranscoder (namespaceOf p.1.Data.Type_) p.1.Data.MessageDefinition = .ok x)
    (c : Nat) :
    transcoderOf lib cache (p :: rest) c = transcoderOf lib ((p.1.Conn, x) :: cache) rest c := by
  unfold transcoderOf
  by_cases hcc : c = p.1.Conn
  · subst hcc
    simp [List.lookup, hl, firstTranscoder, List.find?, hn]
  · have h2 : (c == p.1.Conn) = false := by simpa using hcc
    have h3 : (p.1.Conn == c) = false := by
      simpa using (fun h : p.1.Conn = c => hcc h.symm)
    simp [List.lookup, h2, firstTranscoder, List.find?, h3]

/-- The loop of `cat` over pairs on a run that returns no error, from any state whose cache
holds exactly the identifiers of `seen` and whose buffer is empty. -/
theorem scan_handler_run {T : Type} (lib : TranscoderLib T) (w : IOWriter)
    (input : List (Connection × Message)) :
    ∀ (seen : List Nat) (s : HandlerState T),
      (∀ c, (s.transcoders.lookup c).isSome = true ↔ c ∈ seen) → s.jsondata = [] →
      (scan [jsonMessageHandler lib w] (input.map Except.ok) s).err = none →
      (scan [jsonMessageHandler lib w] (input.map Except.ok) s).state.built
          = s.built ++ buildsFrom seen input
        ∧ (∀ c, (scan [jsonMessageHandler lib w] (input.map Except.ok) s).state.transcoders.lookup c
            = transcoderOf lib s.transcoders input c)
        ∧ (scan [jsonMessageHandler lib w] (input.map Except.ok) s).state.out
            = s.out ++ input.flatMap (fun p =>
                recordWith lib (transcoderOf lib s.transcoders input p.1.Conn) p)
        ∧ ∀ p ∈ input, ∃ t, transcoderOf lib s.transcoders input p.1.Conn = some t
            ∧ (lib.transcode t p.2.Data).2 = none := by
  induction input with
  | nil =>
    intro seen s _ _ _
    refine ⟨by simp [scan, buildsFrom], ?_, by simp [scan], by simp⟩
    intro c
    cases h : s.transcoders.lookup c <;> simp [scan, transcoderOf, firstTranscoder, h]
  | cons p rest ih =>
    intro seen s hs hbuf hrun
    obtain ⟨conn, msg⟩ := p
    have hstep : (jsonMessageHandler lib w s conn msg).2 = none
        ∧ scan [jsonMessageHandler lib w] (((conn, msg) :: rest).map Except.ok) s
          = scan [jsonMessageHandler lib w] (rest.map Except.ok)
              (jsonMessageHandler lib w s conn msg).1 := by
      cases hr : jsonMessageHandler lib w s conn msg with
      | mk s1 e =>
        cases e with
        | some err => simp [scan, runCallbacks, hr] at hrun
        | none => exact ⟨rfl, by simp [scan, runCallbacks, hr]⟩
    obtain ⟨hok, hscan⟩ := hstep
    rw [hscan] at hrun ⊢
    obtain ⟨x, hx, ht, kout, kbuf, ktr, kbuilt⟩ := jsonMessageHandler_of_ok lib w s conn msg hok
    rw [hbuf, List.nil_append] at kout
    by_cases hc : conn.Conn ∈ seen
    · have hsome : (s.transcoders.lookup conn.Conn).isSome = true := (hs _).2 hc
      rw [if_pos hsome] at ktr kbuilt
      have hlk : s.transcoders.lookup conn.Conn = some x := by
        unfold transcoderFor at hx
        cases hl : s.transcoders.lookup conn.Conn with
        | none => rw [hl] at hsome; cases hsome
        | some y => rw [hl] at hx; simp only [Except.ok.injEq] at hx; rw [hx]
      have H : ∀ c, transcoderOf lib s.transcoders ((conn, msg) :: rest) c
          = transcoderOf lib (jsonMessageHandler lib w s conn msg).1.transcoders rest c := by
        intro c; rw [ktr]; exact transcoderOf_hit lib s.transcoders (conn, msg) rest x hlk c
      have Hx : transcoderOf lib s.transcoders ((conn, msg) :: rest) conn.Conn = some x := by
        simp [transcoderOf, hlk]
      obtain ⟨i1, i2, i3, i4⟩ := ih seen (jsonMessageHandler lib w s conn msg).1
        (by intro c; rw [ktr]; exact hs c) kbuf hrun
      refine ⟨?_, ?_, ?_, ?_⟩
      · rw [i1, kbuilt]; simp [buildsFrom, hc]
      · intro c; rw [i2 c, H c]
      · rw [i3, kout, List.flatMap_cons, Hx]
        simp only [H, recordWith, List.append_assoc]
      · intro q hq
        rcases List.mem_cons.mp hq with rfl | hq
        · exact ⟨x, Hx, ht⟩
        · rw [H]; exact i4 q hq
    · have hnone : ¬ ((s.transcoders.lookup conn.Conn).isSome = true) := fun h => hc ((hs _).1 h)
      rw [if_neg hnone] at ktr kbuilt
      have hlk : s.transcoders.lookup conn.Conn = none := by
        cases hl : s.transcoders.lookup conn.Conn with
        | none => rfl
        | some y => rw [hl] at hnone; simp at hnone
      have hx2 : lib.newJSONTranscoder (namespaceOf conn.Data.Type_) conn.Data.MessageDefinition
          = .ok x := by
        unfold transcoderFor at hx
        rw [hlk] at hx
        rw [← packageName_eq]
        exact hx
      have H : ∀ c, transcoderOf lib s.transcoders ((conn, msg) :: rest) c
          = transcoderOf lib (jsonMessageHandler lib w s conn msg).1.transcoders rest c := by
        intro c; rw [ktr]; exact transcoderOf_miss lib s.transcoders (conn, msg) rest x hlk hx2 c
      have Hx : transcoderOf lib s.transcoders ((conn, msg) :: rest) conn.Conn = some x := by
        simp [transcoderOf, hlk, firstTranscoder, List.find?, hx2]
      obtain ⟨i1, i2, i3, i4⟩ := ih (conn.Conn :: seen) (jsonMessageHandler lib w s conn msg).1
        (by
          intro c
          rw [ktr, lookup_isSome_cons]
          simp [hs c]) kbuf hrun
      refine ⟨?_, ?_, ?_, ?_⟩
      · rw [i1, kbuilt, packageName_eq]; simp [buildsFrom, hc]
      · intro c; rw [i2 c, H c]
      · rw [i3, kout, List.flatMap_cons, Hx]
        simp only [H, recordWith, List.append_assoc]
      · intro q hq
        rcases List.mem_cons.mp hq with rfl | hq
        · exact ⟨x, Hx, ht⟩
        · rw [H]; exact i4 q hq

theorem countP_buildsFrom_eq (c : Nat) (input : List (Connection × Message)) :
    ∀ seen : List Nat,
      (buildsFrom seen input).countP (fun b => b.1 == c)
        = if c ∈ seen then 0 else if c ∈ input.map (fun p => p.1.Conn) then 1 else 0 := by
  induction input with
  | nil => intro seen; simp [buildsFrom]
  | cons p rest ih =>
    intro seen
    obtain ⟨conn, msg⟩ := p
    have hm : c ∈ ((conn, msg) :: rest).map (fun p => p.1.Conn)
        ↔ c = conn.Conn ∨ c ∈ rest.map (fun p => p.1.Conn) := by
      rw [List.map_cons, List.mem_cons]
    by_cases hc : conn.Conn ∈ seen
    · have e : buildsFrom seen ((conn, msg) :: rest) = buildsFrom seen rest := by
        simp [buildsFrom, hc]
      rw [e, ih seen]
      by_cases hcs : c ∈ seen
      · rw [if_pos hcs, if_pos hcs]
      · have hne : ¬ c = conn.Conn := fun h => hcs (h ▸ hc)
        rw [if_neg hcs, if_neg hcs]
        exact if_congr (by rw [hm]; exact (or_iff_right hne).symm) rfl rfl
    · have e : buildsFrom seen ((conn, msg) :: rest)
          = (conn.Conn, namespaceOf conn.Data.Type_, conn.Data.MessageDefinition)
            :: buildsFrom (conn.Conn :: seen) rest := by
        simp [buildsFrom, hc]
      rw [e, List.countP_cons, ih (conn.Conn :: seen)]
      by_cases hcc : c = conn.Conn
      · have h1 : c ∈ conn.Conn :: seen := by rw [hcc]; exact List.mem_cons_self _ _
        have h2 : c ∈ ((conn, msg) :: rest).map (fun p => p.1.Conn) := hm.2 (Or.inl hcc)
        have h3 : ¬ c ∈ seen := by rw [hcc]; exact hc
        rw [if_pos h1, if_neg h3, if_pos h2]
        simp [hcc]
      · have hb : ((conn.Conn, namespaceOf conn.Data.Type_, conn.Data.MessageDefinition).1 == c)
            = false := by
          simpa using (fun h : conn.Conn = c => hcc h.symm)
        rw [hb]
        have hiff : c ∈ conn.Conn :: seen ↔ c ∈ seen := by
          rw [List.mem_cons]; exact or_iff_right hcc
        rw [if_congr hiff rfl rfl]
        simp only [Bool.false_eq_true, if_false, Nat.add_zero]
        by_cases hcs : c ∈ seen
        · rw [if_pos hcs, if_pos hcs]
        · rw [if_neg hcs, if_neg hcs]
          exact if_congr (by rw [hm]; exact (or_iff_right hcc).symm) rfl rfl


/-- C7: on every run of the handler over a list of pairs that returns no error (every
construction, `Transcode` and write of the run succeeded), the calls to `NewJSONTranscoder`
are, position by position, one call exactly at the first pair of each connection
identifier, with the text of the schema type before its first `/` as namespace and with the
raw schema definition; an identifier carried by some pair is built exactly once and no other
identifier is built; at the end the cache binds each identifier to the transcoder built from
the first pair carrying it; and every pair, the later pairs of an identifier included, is
transcoded by that transcoder, the output being the records of the payloads it produced. -/
theorem jsonMessageHandler_builds_once {T : Type} (lib : TranscoderLib T) (w : IOWriter)
    (linear : Bool) (input : List (Connection × Message))
    (hrun : (catJSON lib w linear (Source.ofStream (input.map Except.ok))).err = none) :
    (catJSON lib w linear (Source.ofStream (input.map Except.ok))).state.built
        = (List.range input.length).flatMap (buildsAt input)
      ∧ (∀ c, ((catJSON lib w linear (Source.ofStream (input.map Except.ok))).state.built).countP
          (fun b => b.1 == c) = if c ∈ input.map (fun p => p.1.Conn) then 1 else 0)
      ∧ (∀ c, ((catJSON lib w linear
            (Source.ofStream (input.map Except.ok))).state.transcoders.lookup c).map Except.ok
          = (input.find? (fun p => p.1.Conn == c)).map (fun p =>
              lib.newJSONTranscoder (namespaceOf p.1.Data.Type_) p.1.Data.MessageDefinition))
      ∧ (∀ p ∈ input, ∃ t, firstTranscoder lib input p.1.Conn = some t
          ∧ (catJSON lib w linear
              (Source.ofStream (input.map Except.ok))).state.transcoders.lookup p.1.Conn = some t
          ∧ (lib.transcode t p.2.Data).2 = none)
      ∧ (catJSON lib w linear (Source.ofStream (input.map Except.ok))).state.out
          = input.flatMap (fun p => recordWith lib (firstTranscoder lib input p.1.Conn) p) := by
  have hcat : catJSON lib w linear (Source.ofStream (input.map Except.ok))
      = scan [jsonMessageHandler lib w] (input.map Except.ok) HandlerState.init := rfl
  rw [hcat] at hrun ⊢
  obtain ⟨h1, h2, h3, h4⟩ := scan_handler_run lib w input [] HandlerState.init
    (by intro c; simp [HandlerState.init]) rfl hrun
  have hof : ∀ c, transcoderOf lib (HandlerState.init : HandlerState T).transcoders input c
      = firstTranscoder lib input c := by
    intro c; simp [transcoderOf, HandlerState.init]
  have hb : (scan [jsonMessageHandler lib w] (input.map Except.ok)
      (HandlerState.init : HandlerState T)).state.built = buildsFrom [] input := by
    rw [h1]; simp [HandlerState.init]
  refine ⟨?_, ?_, ?_, ?_, ?_⟩
  · rw [hb, buildsFrom_eq_buildsAt input [] [] (by simp)]
    simp
  · intro c
    rw [hb, countP_buildsFrom_eq c input []]
    simp
  · intro c
    rw [h2 c, hof c]
    cases hf : input.find? (fun p => p.1.Conn == c) with
    | none => simp [firstTranscoder, hf]
    | some p =>
      have hp : p ∈ input := List.mem_of_find?_eq_some hf
      have hpc : p.1.Conn = c := by simpa using List.find?_some hf
      obtain ⟨t, ht, _⟩ := h4 p hp
      rw [hof, hpc] at ht
      have ht2 := ht
      unfold firstTranscoder at ht2
      rw [hf] at ht2
      simp only at ht2
      cases hn : lib.newJSONTranscoder (namespaceOf p.1.Data.Type_)
          p.1.Data.MessageDefinition with
      | error e => rw [hn] at ht2; cases ht2
      | ok t2 =>
        rw [hn] at ht2
        simp only [Option.some.injEq] at ht2
        rw [ht]
        simp [hn, ht2]
  · intro p hp
    obtain ⟨t, ht, htr⟩ := h4 p hp
    rw [hof] at ht
    exact ⟨t, ht, by rw [h2, hof, ht], htr⟩
  · rw [h3]
    simp only [hof]
    simp [HandlerState.init]

/-- C7, on three messages of which the first and the third share identifier 0 with
different schemas, with a library and a writer that can fail but do not on this run: two
constructor calls, for `std_msgs` and `geometry_msgs`, and the third message is transcoded
by the transcoder of the first. -/
theorem jsonMessageHandler_builds_once_witness :
    (catJSON namedLib noTabWriter true
        (Source.ofStream (exampleCatInput.map Except.ok))).err = none
      ∧ namedLib.newJSONTranscoder "std_msgs" [] = .error "empty definition"
      ∧ (namedLib.transcode "std_msgs" []).2 = some "empty message"
      ∧ noTabWriter [] ['\t'] = some "short write"
      ∧ (catJSON namedLib noTabWriter true
            (Source.ofStream (exampleCatInput.map Except.ok))).state.built
          = [(0, "std_msgs", "string data".toList), (1, "geometry_msgs", "float64 x".toList)]
      ∧ (catJSON namedLib noTabWriter true
            (Source.ofStream (exampleCatInput.map Except.ok))).state.out
          = ("\x7b\"topic\": \"/a\", \"time\": 100, \"data\": \"std_msgs:1\"\x7d\n"
              ++ "\x7b\"topic\": \"/b\", \"time\": 150, \"data\": \"geometry_msgs:2\"\x7d\n"
              ++ "\x7b\"topic\": \"/a\", \"time\": 200, \"data\": \"std_msgs:3\"\x7d\n").toList :=
  ⟨by decide, rfl, by decide, by decide,
    (jsonMessageHandler_builds_once namedLib noTabWriter true exampleCatInput
      (by decide)).1.trans (by decide),
    (jsonMessageHandler_builds_once namedLib noTabWriter true exampleCatInput
      (by decide)).2.2.2.2.trans (by decide)⟩

/-! ## The types listing of `printInfo`: proofs -/

theorem fillConnIDs_panics (connections : List (Nat × Connection)) :
    ∀ connIDs : List Nat, (∃ p ∈ connections, connIDs.length ≤ p.1) →
      ∃ msg, fillConnIDs connections connIDs = .panic msg := by
  induction connections with
  | nil => intro _ h; obtain ⟨p, hp, _⟩ := h; cases hp
  | cons q rest ih =>
    intro connIDs h
    obtain ⟨i, connection⟩ := q
    by_cases hi : i < connIDs.length
    · obtain ⟨p, hp, hlen⟩ := h
      have hrest : p ∈ rest := by
        rcases List.mem_cons.mp hp with rfl | hp
        · exact absurd hi (by simpa using hlen)
        · exact hp
      have := ih (connIDs.set i connection.Conn) ⟨p, hrest, by simpa using hlen⟩
      simpa [fillConnIDs, hi] using this
    · exact ⟨"index out of range", by simp [fillConnIDs, hi]⟩

theorem typesListing_panics_of_key_ge (info : Info)
    (h : ∃ p ∈ info.Connections, info.Connections.length ≤ p.1) :
    ∃ msg, typesListing info = .panic msg := by
  obtain ⟨msg, hmsg⟩ :=
    fillConnIDs_panics info.Connections (List.replicate info.Connections.length 0)
      (by simpa using h)
  exact ⟨msg, by simp [typesListing, hmsg]⟩

/-- C8: on connections numbered 0 to 3 the types listing holds each type once, in the order
of the smallest identifier carrying it and with the hash of that connection; on a bag whose
only connection has identifier 1 `printInfo` panics before the listing is built, whether the
container holds the connection by identifier or by position. -/
theorem typesListing_sparse_ids_panic :
    typesListing denseInfo =
        .ok [["geometry_msgs/Point", "[4a84]"], ["std_msgs/String", "[992c]"],
             ["sensor_msgs/Imu", "[6a62]"]] ∧
      typesListing sparseInfo = .panic "index out of range" ∧
      typesListing sparseInfoByPosition =
        .panic "invalid memory address or nil pointer dereference" := by
  refine ⟨?_, ?_, ?_⟩ <;> decide

end R0sbag
